import Mathlib

/-!
Verification of the log-structured key/value store in `Project2/src/lib.rs`.

The store keeps a single append-only log file `kvs.db` whose contents are a
concatenation of JSON-encoded `Operation` records (serde_json external tagging:
a `Set` record is `{"Set":{"key":...,"value":...}}`, a `Rm` record is
`{"Rm":{"key":...}}`, the legacy `Get` record is `{"Get":{"key":...}}`), an
in-memory index `store : HashMap<String, (u64, u64)>` mapping each live key to
the (offset, length) of its latest Set record, and a dead-byte counter
`uncompacted`.

The embedding below models:
  * the record codec: serde_json serialization of the `Operation` enum, and a
    streaming decoder with a byte-offset cursor as used by
    `Deserializer::from_reader(..).into_iter()` and `serde_json::from_slice`;
  * the file as a list of characters (offsets and lengths count code units);
  * the `HashMap` as an association list without duplicate keys;
  * `KvStore::open`/`load`, `set`, `get`, `remove` and `compact`, including the
    state-mutation order of `compact` (index rewrite and counter reset happen
    before the rename of `kvs.comp` over `kvs.db`).
-/

/-- The `Operation` enum from the source: records written to the log. -/
inductive Operation where
  | Set (key value : String)
  | Get (key : String)
  | Rm (key : String)
deriving DecidableEq, Repr

/-- The `KvsError` enum from the source (the payloads of the wrapped causes
are dropped; `InvalidFile` is the "bad format" error). -/
inductive KvsError where
  | InvalidCommand (command : String)
  | InvalidFile
  | InvalidUtf8
  | Io
deriving DecidableEq, Repr

/-- Hexadecimal digit character for `n < 16` (serde_json emits lowercase). -/
def hexDig (n : Nat) : Char :=
  if n < 10 then Char.ofNat (48 + n) else Char.ofNat (87 + n)

/-- Value of a hexadecimal digit character, accepting both cases. -/
def hexVal (c : Char) : Option Nat :=
  if 48 ≤ c.toNat ∧ c.toNat ≤ 57 then some (c.toNat - 48)
  else if 97 ≤ c.toNat ∧ c.toNat ≤ 102 then some (c.toNat - 87)
  else if 65 ≤ c.toNat ∧ c.toNat ≤ 70 then some (c.toNat - 55)
  else none

/-- serde_json's escaping of a single character inside a JSON string:
quote and backslash get a two-character escape, the control characters
BS/TAB/LF/FF/CR get their short escapes, other control characters get
`\u00XX`, and everything else is emitted literally. -/
def escChar (c : Char) : List Char :=
  if c = '"' then ['\\', '"']
  else if c = '\\' then ['\\', '\\']
  else if c.toNat = 8 then ['\\', 'b']
  else if c.toNat = 9 then ['\\', 't']
  else if c.toNat = 10 then ['\\', 'n']
  else if c.toNat = 12 then ['\\', 'f']
  else if c.toNat = 13 then ['\\', 'r']
  else if c.toNat < 32 then ['\\', 'u', '0', '0', hexDig (c.toNat / 16), hexDig (c.toNat % 16)]
  else [c]

/-- Escape a whole character list. -/
def escList : List Char → List Char
  | [] => []
  | c :: rest => escChar c ++ escList rest

/-- JSON encoding of a string: quote, escaped body, quote. -/
def encodeString (s : String) : List Char :=
  '"' :: (escList s.data ++ ['"'])

/-- Parser state for the body of a JSON string: `jnorm` between characters,
`jesc` after a backslash, `jhex acc n` inside a `\uXXXX` escape with `n`
digits still to read and `acc` the value of the digits read so far. -/
inductive JState where
  | jnorm
  | jesc
  | jhex (acc : Nat) (n : Nat)

/-- Parser for the body of a JSON string (the part after the opening quote),
as a character-at-a-time state machine over the JSON string grammar accepted
by serde_json; returns the decoded characters and the input remaining after
the closing quote.  (Unicode surrogate pairs are not paired up; serde_json
only emits `\u00XX` escapes, for control characters.) -/
def parseStrAux (st : JState) (i : List Char) : Option (List Char × List Char) :=
  match st, i with
  | _, [] => none
  | .jnorm, c :: rest =>
    if c = '"' then some ([], rest)
    else if c = '\\' then parseStrAux .jesc rest
    else if c.toNat < 32 then none
    else (parseStrAux .jnorm rest).map (fun p => (c :: p.1, p.2))
  | .jesc, e :: rest =>
    if e = '"' then (parseStrAux .jnorm rest).map (fun p => ('"' :: p.1, p.2))
    else if e = '\\' then (parseStrAux .jnorm rest).map (fun p => ('\\' :: p.1, p.2))
    else if e = '/' then (parseStrAux .jnorm rest).map (fun p => ('/' :: p.1, p.2))
    else if e = 'b' then (parseStrAux .jnorm rest).map (fun p => (Char.ofNat 8 :: p.1, p.2))
    else if e = 'f' then (parseStrAux .jnorm rest).map (fun p => (Char.ofNat 12 :: p.1, p.2))
    else if e = 'n' then (parseStrAux .jnorm rest).map (fun p => (Char.ofNat 10 :: p.1, p.2))
    else if e = 'r' then (parseStrAux .jnorm rest).map (fun p => (Char.ofNat 13 :: p.1, p.2))
    else if e = 't' then (parseStrAux .jnorm rest).map (fun p => (Char.ofNat 9 :: p.1, p.2))
    else if e = 'u' then parseStrAux (.jhex 0 4) rest
    else none
  | .jhex acc n, c :: rest =>
    match hexVal c with
    | some x =>
      if n ≤ 1 then (parseStrAux .jnorm rest).map (fun p => (Char.ofNat (16 * acc + x) :: p.1, p.2))
      else parseStrAux (.jhex (16 * acc + x) (n - 1)) rest
    | none => none
termination_by structural i

/-- Parser for the body of a JSON string, from its initial state. -/
def parseStringBody (i : List Char) : Option (List Char × List Char) :=
  parseStrAux .jnorm i

/-- Parse a complete JSON string (opening quote included). -/
def parseJString (i : List Char) : Option (String × List Char) :=
  match i with
  | [] => none
  | c :: rest =>
    if c = '"' then (parseStringBody rest).map (fun p => (String.mk p.1, p.2))
    else none

/-- Consume an exact sequence of characters from the front of the input. -/
def dropExact : List Char → List Char → Option (List Char)
  | [], i => some i
  | _ :: _, [] => none
  | p :: ps, c :: cs => if c = p then dropExact ps cs else none

/-- The serde_json framing of a Set record up to the key string. -/
def setPre : List Char := ['{', '"', 'S', 'e', 't', '"', ':', '{', '"', 'k', 'e', 'y', '"', ':']

/-- The serde_json framing of a legacy Get record up to the key string. -/
def getPre : List Char := ['{', '"', 'G', 'e', 't', '"', ':', '{', '"', 'k', 'e', 'y', '"', ':']

/-- The serde_json framing of a Rm record up to the key string. -/
def rmPre : List Char := ['{', '"', 'R', 'm', '"', ':', '{', '"', 'k', 'e', 'y', '"', ':']

/-- The framing between the key and the value of a Set record. -/
def valMid : List Char := [',', '"', 'v', 'a', 'l', 'u', 'e', '"', ':']

/-- The two closing braces of a record. -/
def closeBB : List Char := ['}', '}']

/-- serde_json serialization of one `Operation` (what `serde_json::to_writer`
appends to the log). -/
def encodeOp : Operation → List Char
  | .Set k v => setPre ++ encodeString k ++ valMid ++ encodeString v ++ closeBB
  | .Get k => getPre ++ encodeString k ++ closeBB
  | .Rm k => rmPre ++ encodeString k ++ closeBB

/-- Decode a single record from the front of the input, returning the record
and the remaining input (the byte-offset cursor is the amount consumed). -/
def decodeOne (i : List Char) : Option (Operation × List Char) :=
  match dropExact setPre i with
  | some r1 =>
    match parseJString r1 with
    | some (k, r2) =>
      match dropExact valMid r2 with
      | some r3 =>
        match parseJString r3 with
        | some (v, r4) => (dropExact closeBB r4).map (fun r5 => (.Set k v, r5))
        | none => none
      | none => none
    | none => none
  | none =>
    match dropExact getPre i with
    | some r1 =>
      match parseJString r1 with
      | some (k, r2) => (dropExact closeBB r2).map (fun r3 => (.Get k, r3))
      | none => none
    | none =>
      match dropExact rmPre i with
      | some r1 =>
        match parseJString r1 with
        | some (k, r2) => (dropExact closeBB r2).map (fun r3 => (.Rm k, r3))
        | none => none
      | none => none

/-- Models `serde_json::from_slice`: decode a single record that must span the whole
slice. -/
def decodeSlice (i : List Char) : Option Operation :=
  match decodeOne i with
  | some (op, []) => some op
  | _ => none

/-- Fueled streaming decode of the whole log, as performed by
`Deserializer::from_reader(..).into_iter::<Operation>()`: yields each record
paired with its encoded length, or an error if some nonempty suffix does not
decode as a record. -/
def decodeAllF : Nat → List Char → Except Unit (List (Operation × Nat))
  | _, [] => .ok []
  | 0, _ :: _ => .error ()
  | fuel + 1, c :: cs =>
    match decodeOne (c :: cs) with
    | none => .error ()
    | some (op, r) =>
      (decodeAllF fuel r).map (fun rest => (op, (c :: cs).length - r.length) :: rest)

/-- Streaming decode of the whole log (the fuel is sufficient because a
record consumes at least one character). -/
def decodeAll (i : List Char) : Except Unit (List (Operation × Nat)) :=
  decodeAllF i.length i

/-- Extension property of `parseStrAux`, stated for one input list across
all parser states. -/
def ParseExt (i : List Char) : Prop :=
  ∀ (st : JState) (cs r : List Char), parseStrAux st i = some (cs, r) →
    ∃ pre, pre ≠ [] ∧ i = pre ++ r ∧ ∀ r', parseStrAux st (pre ++ r') = some (cs, r')

/-- The bytes `[p, p+n)` of the log. -/
def sliceAt (log : List Char) (p n : Nat) : List Char := (log.drop p).take n

/-- The in-memory index `store : HashMap<String, (u64, u64)>`, modelled as an
association list from key to (offset, length), kept without duplicate keys. -/
abbrev StoreMap := List (String × Nat × Nat)

/-- Models `HashMap::get`. -/
def lookupStore (k : String) : StoreMap → Option (Nat × Nat)
  | [] => none
  | (k', pl) :: rest => if k' = k then some pl else lookupStore k rest

/-- Models `HashMap::insert`: returns the previous value for the key (if any)
together with the updated map. -/
def mapInsert (k : String) (pl : Nat × Nat) : StoreMap → Option (Nat × Nat) × StoreMap
  | [] => (none, [(k, pl)])
  | (k', pl') :: rest =>
    if k' = k then (some pl', (k, pl) :: rest)
    else
      let res := mapInsert k pl rest
      (res.1, (k', pl') :: res.2)

/-- Models `HashMap::remove`: returns the removed value (if any) together with the
updated map. -/
def mapRemove (k : String) : StoreMap → Option (Nat × Nat) × StoreMap
  | [] => (none, [])
  | (k', pl') :: rest =>
    if k' = k then (some pl', rest)
    else
      let res := mapRemove k rest
      (res.1, (k', pl') :: res.2)

/-- The `KvStore` struct: the index, the contents of the open log file
`kvs.db`, and the dead-byte counter `uncompacted`.  (The directory path is
left implicit: the model works with the file contents directly.) -/
structure KvStore where
  store : StoreMap
  log : List Char
  uncompacted : Nat
deriving DecidableEq, Repr

/-- The constant `COMPACTION_THRESHOLD: u64 = 1024 * 1024`. -/
def COMPACTION_THRESHOLD : Nat := 1024 * 1024

/-- The length recorded in a prior index entry, as used when accounting
overwritten bytes (`if let Some((_, len)) = ... { uncompacted += len }`). -/
def oldLen : Option (Nat × Nat) → Nat
  | some pl => pl.2
  | none => 0

/-- One iteration of the replay loop in `KvStore::load`, applied to one
decoded record of length `n` starting at offset `pos`:
a Set record inserts `key -> (pos, n)` and counts a replaced entry's length
as dead; a Rm record removes the entry, counting both the removed entry's
length and the tombstone length `n` as dead; other (legacy) records are
skipped. -/
def replay : List (Operation × Nat) → Nat → StoreMap → Nat → StoreMap × Nat
  | [], _, st, unc => (st, unc)
  | r :: rest, pos, st, unc =>
    match r.1 with
    | .Set key _ =>
      let res := mapInsert key (pos, r.2) st
      replay rest (pos + r.2) res.2 (unc + oldLen res.1)
    | .Rm key =>
      let res := mapRemove key st
      replay rest (pos + r.2) res.2 (unc + oldLen res.1 + r.2)
    | .Get _ => replay rest (pos + r.2) st unc

/-- Models `KvStore::open` followed by `load`: stream-decode the whole log from
offset 0 and replay it into a fresh index; a decode failure surfaces as the
bad-format error `InvalidFile`.  (Named `openStore` because `open` is a
reserved word.) -/
def KvStore.openStore (l : List Char) : Except KvsError KvStore :=
  match decodeAll l with
  | .error _ => .error .InvalidFile
  | .ok recs =>
    let res := replay recs 0 [] 0
    .ok { store := res.1, log := l, uncompacted := res.2 }

/-- The loop of `KvStore::compact`: for each index entry in order, record the
current length of `kvs.comp` as the entry's new offset, then append the
entry's `len` bytes read from the live log at its old offset. -/
def compactLoop (log : List Char) : StoreMap → List Char → StoreMap × List Char
  | [], comp => ([], comp)
  | (k, pl) :: rest, comp =>
    let chunk := sliceAt log pl.1 pl.2
    let res := compactLoop log rest (comp ++ chunk)
    ((k, (comp.length, pl.2)) :: res.1, res.2)

/-- Models `KvStore::compact`, with the success of the `fs::rename` call made
explicit: the code rewrites every index offset in place and resets
`uncompacted` to 0 *before* renaming `kvs.comp` over `kvs.db`; if the rename
fails (`renameOk = false`) the error is propagated with the handle already
mutated, its open log still being the old `kvs.db`.  The returned Bool is
true when compaction completed. -/
def KvStore.compactRun (s : KvStore) (renameOk : Bool) : KvStore × Bool :=
  let res := compactLoop s.log s.store []
  if renameOk then ({ store := res.1, log := res.2, uncompacted := 0 }, true)
  else ({ store := res.1, log := s.log, uncompacted := 0 }, false)

/-- Models `KvStore::compact` on the successful path. -/
def KvStore.compact (s : KvStore) : KvStore := (s.compactRun true).1

/-- Models `KvStore::set` without the compaction trigger: append the
encoded Set record, insert `key -> (old_len, new_len - old_len)`, and add a
replaced entry's length to the dead-byte counter. -/
def KvStore.setNoCompact (s : KvStore) (k v : String) : KvStore :=
  let old_len := s.log.length
  let log' := s.log ++ encodeOp (.Set k v)
  let res := mapInsert k (old_len, log'.length - old_len) s.store
  { store := res.2, log := log',
    uncompacted := s.uncompacted + oldLen res.1 }

/-- Models `KvStore::set`: as `setNoCompact`, then compact if the dead-byte counter
exceeds `COMPACTION_THRESHOLD`. -/
def KvStore.set (s : KvStore) (k v : String) : KvStore :=
  let s' := s.setNoCompact k v
  if s'.uncompacted > COMPACTION_THRESHOLD then s'.compact else s'

/-- Models `KvStore::get`: look up the key; on a hit seek to the stored offset, read
exactly `len` bytes (failing with an I/O error if the file is too short, as
`read_exact` does), and decode them as a single record.  A decode failure is
the bad-format error; a decoded record that is not a Set yields `Ok(None)`
(the `if let` falls through); the decoded record's key is not compared with
the requested key. -/
def KvStore.get (s : KvStore) (k : String) : Except KvsError (Option String) :=
  match lookupStore k s.store with
  | none => .ok none
  | some (pos, len) =>
    if pos + len ≤ s.log.length then
      match decodeSlice (sliceAt s.log pos len) with
      | none => .error .InvalidFile
      | some (.Set _ v) => .ok (some v)
      | some _ => .ok none
    else .error .Io

/-- Models `KvStore::remove` without the compaction trigger: remove the key from the
index (failing with the `Key not found` error if absent, in which case the
handle is unchanged and nothing is appended), then append a tombstone and add
only the tombstone's length to the dead-byte counter — the removed entry's
`(pos, len)` returned by `HashMap::remove` is discarded by the `?` operator.
Returns the post-call handle together with the call's result. -/
def KvStore.removeNoCompact (s : KvStore) (k : String) : KvStore × Except KvsError Unit :=
  let res := mapRemove k s.store
  match res.1 with
  | none => ({ s with store := res.2 }, .error (.InvalidCommand "Key not found"))
  | some _ =>
    let old_len := s.log.length
    let log' := s.log ++ encodeOp (.Rm k)
    ({ store := res.2, log := log',
       uncompacted := s.uncompacted + (log'.length - old_len) }, .ok ())

/-- Models `KvStore::remove`: as `removeNoCompact`, then compact if the dead-byte
counter exceeds the threshold. -/
def KvStore.remove (s : KvStore) (k : String) : KvStore × Except KvsError Unit :=
  let res := s.removeNoCompact k
  match res.2 with
  | .error e => (res.1, .error e)
  | .ok () =>
    (if res.1.uncompacted > COMPACTION_THRESHOLD then res.1.compact else res.1, .ok ())

/-- A client call against the store: the three API operations. -/
inductive Op where
  | opSet (k v : String)
  | opRm (k : String)
  | opGet (k : String)

/-- The key an operation addresses. -/
def Op.key : Op → String
  | .opSet k _ => k
  | .opRm k => k
  | .opGet k => k

/-- Does a call mutate the binding of key `k`?  Sets and removes of `k` do;
gets never do (`get` takes the handle by mutable borrow only to seek). -/
def Op.mutates : Op → String → Bool
  | .opSet k' _, k => k' = k
  | .opRm k', k => k' = k
  | .opGet _, _ => false

/-- Apply one call to the handle (a get does not change the handle; a failed
remove leaves it unchanged as well). -/
def KvStore.applyOp (s : KvStore) : Op → KvStore
  | .opSet k v => s.set k v
  | .opRm k => (s.remove k).1
  | .opGet _ => s

/-- Apply a sequence of calls in order. -/
def KvStore.applyOps (s : KvStore) (ops : List Op) : KvStore :=
  ops.foldl KvStore.applyOp s

/-- Apply one call with the compaction trigger disabled. -/
def KvStore.applyOpNC (s : KvStore) : Op → KvStore
  | .opSet k v => s.setNoCompact k v
  | .opRm k => (s.removeNoCompact k).1
  | .opGet _ => s

/-- Apply a sequence of calls with the compaction trigger disabled. -/
def KvStore.applyOpsNC (s : KvStore) (ops : List Op) : KvStore :=
  ops.foldl KvStore.applyOpNC s

/-- Does an optional decoded record hold a Set record for key `k`? -/
def isSetFor (k : String) : Option Operation → Bool
  | some (.Set k' _) => k' = k
  | some (.Get _) => false
  | some (.Rm _) => false
  | none => false

/-- A well-formed index entry: its byte range lies inside the log and the
range decodes (as a single record) to a Set record whose key is the index
key. -/
def entryOk (log : List Char) (e : String × Nat × Nat) : Prop :=
  e.2.1 + e.2.2 ≤ log.length ∧ isSetFor e.1 (decodeSlice (sliceAt log e.2.1 e.2.2)) = true

/-- The index invariant: keys are unique and every entry is well formed. -/
def IndexOk (s : KvStore) : Prop :=
  (s.store.map Prod.fst).Nodup ∧ ∀ e ∈ s.store, entryOk s.log e

/-- The log replays to the current index: stream-decoding the log succeeds
and replaying it rebuilds an index with the same lookups. -/
def ReplayOk (s : KvStore) : Prop :=
  ∃ recs, decodeAll s.log = .ok recs ∧
    ∀ k, lookupStore k (replay recs 0 [] 0).1 = lookupStore k s.store

/-- The full invariant of a store handle. -/
def StoreInv (s : KvStore) : Prop := IndexOk s ∧ ReplayOk s

instance (log : List Char) (e : String × Nat × Nat) : Decidable (entryOk log e) := by
  unfold entryOk
  infer_instance

instance (s : KvStore) : Decidable (IndexOk s) := by
  unfold IndexOk
  infer_instance

/-- The abstract value of a key: the value field of the Set record the index
points to (computable; equals what `get` returns on a handle satisfying
`IndexOk`). -/
def KvStore.absGet (s : KvStore) (k : String) : Option String :=
  match lookupStore k s.store with
  | none => none
  | some (pos, len) =>
    match decodeSlice (sliceAt s.log pos len) with
    | some (.Set _ v) => some v
    | _ => none

/-- Total encoded length of a record list. -/
def sumLens : List (Operation × Nat) → Nat
  | [] => 0
  | r :: rest => r.2 + sumLens rest

/-- The records of a decoded stream, with their cumulative positions starting
at `pos`, are in-bounds slices of `L` that decode back to themselves, and
they tile `L` exactly to its end. -/
def SlicesOk (L : List Char) : Nat → List (Operation × Nat) → Prop
  | pos, [] => pos = L.length
  | pos, r :: rest =>
    1 ≤ r.2 ∧ pos + r.2 ≤ L.length ∧ decodeSlice (sliceAt L pos r.2) = some r.1 ∧
      SlicesOk L (pos + r.2) rest

/-- The bytes compaction copies: the concatenation of every index entry's
slice of the live log, in index order. -/
def chunksOf (log : List Char) : StoreMap → List Char
  | [] => []
  | e :: rest => sliceAt log e.2.1 e.2.2 ++ chunksOf log rest

/-- The index after compaction: each entry keeps its key and length, its
offset becoming the cumulative length of the chunks copied before it. -/
def reposition (log : List Char) : StoreMap → Nat → StoreMap
  | [], _ => []
  | e :: rest, base =>
    (e.1, (base, e.2.2)) :: reposition log rest (base + (sliceAt log e.2.1 e.2.2).length)

/-- The key named by a record. -/
def opKey : Operation → String
  | .Set k _ => k
  | .Get k => k
  | .Rm k => k

/-- Is a record a Set record? -/
def isSetOp : Operation → Bool
  | .Set _ _ => true
  | .Get _ => false
  | .Rm _ => false

-- ### Step lemmas for the string parser

theorem hexVal_hexDig : ∀ n < 16, hexVal (hexDig n) = some n := by decide

theorem parseStrAux_quote (r : List Char) : parseStrAux .jnorm ('"' :: r) = some ([], r) := by
  rw [parseStrAux, if_pos rfl]

theorem parseStrAux_slash (r : List Char) :
    parseStrAux .jnorm ('\\' :: r) = parseStrAux .jesc r := by
  rw [parseStrAux]
  rw [if_neg (by decide), if_pos rfl]

theorem parseStrAux_other {c : Char} (h1 : c ≠ '"') (h2 : c ≠ '\\') (h3 : ¬ c.toNat < 32)
    (r : List Char) :
    parseStrAux .jnorm (c :: r) = (parseStrAux .jnorm r).map (fun p => (c :: p.1, p.2)) := by
  rw [parseStrAux, if_neg h1, if_neg h2, if_neg h3]

theorem parseStrAux_esc_quote (r : List Char) :
    parseStrAux .jesc ('"' :: r) = (parseStrAux .jnorm r).map (fun p => ('"' :: p.1, p.2)) := by
  rw [parseStrAux, if_pos rfl]

theorem parseStrAux_esc_slash (r : List Char) :
    parseStrAux .jesc ('\\' :: r) = (parseStrAux .jnorm r).map (fun p => ('\\' :: p.1, p.2)) := by
  rw [parseStrAux, if_neg (by decide), if_pos rfl]

theorem parseStrAux_esc_b (r : List Char) :
    parseStrAux .jesc ('b' :: r)
      = (parseStrAux .jnorm r).map (fun p => (Char.ofNat 8 :: p.1, p.2)) := by
  rw [parseStrAux, if_neg (by decide), if_neg (by decide), if_neg (by decide), if_pos rfl]

theorem parseStrAux_esc_f (r : List Char) :
    parseStrAux .jesc ('f' :: r)
      = (parseStrAux .jnorm r).map (fun p => (Char.ofNat 12 :: p.1, p.2)) := by
  rw [parseStrAux, if_neg (by decide), if_neg (by decide), if_neg (by decide), if_neg (by decide),
    if_pos rfl]

theorem parseStrAux_esc_n (r : List Char) :
    parseStrAux .jesc ('n' :: r)
      = (parseStrAux .jnorm r).map (fun p => (Char.ofNat 10 :: p.1, p.2)) := by
  rw [parseStrAux, if_neg (by decide), if_neg (by decide), if_neg (by decide), if_neg (by decide),
    if_neg (by decide), if_pos rfl]

theorem parseStrAux_esc_r (r : List Char) :
    parseStrAux .jesc ('r' :: r)
      = (parseStrAux .jnorm r).map (fun p => (Char.ofNat 13 :: p.1, p.2)) := by
  rw [parseStrAux, if_neg (by decide), if_neg (by decide), if_neg (by decide), if_neg (by decide),
    if_neg (by decide), if_neg (by decide), if_pos rfl]

theorem parseStrAux_esc_t (r : List Char) :
    parseStrAux .jesc ('t' :: r)
      = (parseStrAux .jnorm r).map (fun p => (Char.ofNat 9 :: p.1, p.2)) := by
  rw [parseStrAux, if_neg (by decide), if_neg (by decide), if_neg (by decide), if_neg (by decide),
    if_neg (by decide), if_neg (by decide), if_neg (by decide), if_pos rfl]

theorem parseStrAux_esc_u (r : List Char) :
    parseStrAux .jesc ('u' :: r) = parseStrAux (.jhex 0 4) r := by
  rw [parseStrAux, if_neg (by decide), if_neg (by decide), if_neg (by decide), if_neg (by decide),
    if_neg (by decide), if_neg (by decide), if_neg (by decide), if_neg (by decide), if_pos rfl]

theorem parseStrAux_hex_step {c : Char} {x : Nat} (hx : hexVal c = some x) {n : Nat}
    (hn : ¬ n ≤ 1) (acc : Nat) (r : List Char) :
    parseStrAux (.jhex acc n) (c :: r) = parseStrAux (.jhex (16 * acc + x) (n - 1)) r := by
  rw [parseStrAux, hx]
  simp only [if_neg hn]

theorem parseStrAux_hex_last {c : Char} {x : Nat} (hx : hexVal c = some x) {n : Nat}
    (hn : n ≤ 1) (acc : Nat) (r : List Char) :
    parseStrAux (.jhex acc n) (c :: r)
      = (parseStrAux .jnorm r).map (fun p => (Char.ofNat (16 * acc + x) :: p.1, p.2)) := by
  rw [parseStrAux, hx]
  simp only [if_pos hn]

-- ### Round-trip lemmas for the codec

theorem parseStringBody_escChar (c : Char) (tail : List Char) :
    parseStrAux .jnorm (escChar c ++ tail)
      = (parseStrAux .jnorm tail).map (fun p => (c :: p.1, p.2)) := by
  by_cases h1 : c = '"'
  · subst h1
    show parseStrAux .jnorm ('\\' :: '"' :: tail) = _
    rw [parseStrAux_slash, parseStrAux_esc_quote]
  by_cases h2 : c = '\\'
  · subst h2
    show parseStrAux .jnorm ('\\' :: '\\' :: tail) = _
    rw [parseStrAux_slash, parseStrAux_esc_slash]
  by_cases h3 : c.toNat = 8
  · have hc : c = Char.ofNat 8 := by rw [← h3, Char.ofNat_toNat]
    rw [escChar, if_neg h1, if_neg h2, if_pos h3]
    show parseStrAux .jnorm ('\\' :: 'b' :: tail) = _
    rw [parseStrAux_slash, parseStrAux_esc_b, ← hc]
  by_cases h4 : c.toNat = 9
  · have hc : c = Char.ofNat 9 := by rw [← h4, Char.ofNat_toNat]
    rw [escChar, if_neg h1, if_neg h2, if_neg h3, if_pos h4]
    show parseStrAux .jnorm ('\\' :: 't' :: tail) = _
    rw [parseStrAux_slash, parseStrAux_esc_t, ← hc]
  by_cases h5 : c.toNat = 10
  · have hc : c = Char.ofNat 10 := by rw [← h5, Char.ofNat_toNat]
    rw [escChar, if_neg h1, if_neg h2, if_neg h3, if_neg h4, if_pos h5]
    show parseStrAux .jnorm ('\\' :: 'n' :: tail) = _
    rw [parseStrAux_slash, parseStrAux_esc_n, ← hc]
  by_cases h6 : c.toNat = 12
  · have hc : c = Char.ofNat 12 := by rw [← h6, Char.ofNat_toNat]
    rw [escChar, if_neg h1, if_neg h2, if_neg h3, if_neg h4, if_neg h5, if_pos h6]
    show parseStrAux .jnorm ('\\' :: 'f' :: tail) = _
    rw [parseStrAux_slash, parseStrAux_esc_f, ← hc]
  by_cases h7 : c.toNat = 13
  · have hc : c = Char.ofNat 13 := by rw [← h7, Char.ofNat_toNat]
    rw [escChar, if_neg h1, if_neg h2, if_neg h3, if_neg h4, if_neg h5, if_neg h6, if_pos h7]
    show parseStrAux .jnorm ('\\' :: 'r' :: tail) = _
    rw [parseStrAux_slash, parseStrAux_esc_r, ← hc]
  by_cases h8 : c.toNat < 32
  · rw [escChar, if_neg h1, if_neg h2, if_neg h3, if_neg h4, if_neg h5, if_neg h6, if_neg h7,
      if_pos h8]
    show parseStrAux .jnorm ('\\' :: 'u' :: '0' :: '0' :: hexDig (c.toNat / 16)
        :: hexDig (c.toNat % 16) :: tail) = _
    have hdiv : c.toNat / 16 < 16 := by omega
    have hmod : c.toNat % 16 < 16 := Nat.mod_lt _ (by omega)
    rw [parseStrAux_slash, parseStrAux_esc_u,
      parseStrAux_hex_step (show hexVal '0' = some 0 by decide) (by omega),
      parseStrAux_hex_step (show hexVal '0' = some 0 by decide) (by omega),
      parseStrAux_hex_step (hexVal_hexDig _ hdiv) (by omega),
      parseStrAux_hex_last (hexVal_hexDig _ hmod) (by omega)]
    have : 16 * (16 * (16 * (16 * 0 + 0) + 0) + c.toNat / 16) + c.toNat % 16 = c.toNat := by
      omega
    rw [this, Char.ofNat_toNat]
  · rw [escChar, if_neg h1, if_neg h2, if_neg h3, if_neg h4, if_neg h5, if_neg h6, if_neg h7,
      if_neg h8]
    show parseStrAux .jnorm (c :: tail) = _
    rw [parseStrAux_other h1 h2 h8]

theorem parseStringBody_escList (l : List Char) (rest : List Char) :
    parseStrAux .jnorm (escList l ++ '"' :: rest) = some (l, rest) := by
  induction l with
  | nil => exact parseStrAux_quote rest
  | cons c l ih =>
    rw [escList, List.append_assoc, parseStringBody_escChar, ih]
    rfl

theorem parseJString_encodeString (s : String) (rest : List Char) :
    parseJString (encodeString s ++ rest) = some (s, rest) := by
  show parseJString ('"' :: (escList s.data ++ ['"'] ++ rest)) = _
  rw [parseJString, parseStringBody, List.append_assoc]
  show (parseStrAux .jnorm (escList s.data ++ '"' :: rest)).map _ = _
  rw [parseStringBody_escList]
  rfl

theorem dropExact_self (p x : List Char) : dropExact p (p ++ x) = some x := by
  induction p with
  | nil => rfl
  | cons c ps ih => simpa [dropExact] using ih

theorem dropExact_eq_append {p i r : List Char} (h : dropExact p i = some r) : i = p ++ r := by
  induction p generalizing i with
  | nil =>
    simp only [dropExact, Option.some.injEq] at h
    simp [h]
  | cons c ps ih =>
    match i with
    | [] => exact absurd h (by simp [dropExact])
    | c' :: cs =>
      rw [dropExact] at h
      split at h
      · next heq => rw [heq, ih h]; rfl
      · exact absurd h (by simp)

theorem decodeOne_encodeOp (op : Operation) (rest : List Char) :
    decodeOne (encodeOp op ++ rest) = some (op, rest) := by
  cases op with
  | Set k v =>
    rw [encodeOp, decodeOne]
    rw [show setPre ++ encodeString k ++ valMid ++ encodeString v ++ closeBB ++ rest
      = setPre ++ (encodeString k ++ (valMid ++ (encodeString v ++ (closeBB ++ rest)))) by
        simp [List.append_assoc]]
    simp only [dropExact_self, parseJString_encodeString]
    rfl
  | Get k =>
    rw [encodeOp, decodeOne]
    rw [show getPre ++ encodeString k ++ closeBB ++ rest
      = getPre ++ (encodeString k ++ (closeBB ++ rest)) by simp [List.append_assoc]]
    rw [show dropExact setPre (getPre ++ (encodeString k ++ (closeBB ++ rest))) = none from rfl]
    simp only [dropExact_self, parseJString_encodeString]
    rfl
  | Rm k =>
    rw [encodeOp, decodeOne]
    rw [show rmPre ++ encodeString k ++ closeBB ++ rest
      = rmPre ++ (encodeString k ++ (closeBB ++ rest)) by simp [List.append_assoc]]
    rw [show dropExact setPre (rmPre ++ (encodeString k ++ (closeBB ++ rest))) = none from rfl]
    rw [show dropExact getPre (rmPre ++ (encodeString k ++ (closeBB ++ rest))) = none from rfl]
    simp only [dropExact_self, parseJString_encodeString]
    rfl

-- (`get`, compaction).

theorem parseStrAux_nil (st : JState) : parseStrAux st [] = none := by
  cases st <;> rw [parseStrAux]

theorem parseExt_step_call {c0 : Char} {rest : List Char} {stOut stIn : JState}
    (ihrest : ParseExt rest)
    (hstep : ∀ X, parseStrAux stOut (c0 :: X) = parseStrAux stIn X)
    {cs r : List Char} (h : parseStrAux stIn rest = some (cs, r)) :
    ∃ pre, pre ≠ [] ∧ c0 :: rest = pre ++ r ∧
      ∀ r', parseStrAux stOut (pre ++ r') = some (cs, r') := by
  obtain ⟨pre, hne, heq, hall⟩ := ihrest stIn cs r h
  refine ⟨c0 :: pre, by simp, by rw [heq]; rfl, fun r' => ?_⟩
  rw [List.cons_append, hstep, hall]

theorem parseExt_step_map {c0 ch : Char} {rest : List Char} {stOut : JState}
    (ihrest : ParseExt rest)
    (hstep : ∀ X, parseStrAux stOut (c0 :: X)
      = (parseStrAux .jnorm X).map (fun p => (ch :: p.1, p.2)))
    {cs r : List Char}
    (h : (parseStrAux .jnorm rest).map (fun p => (ch :: p.1, p.2)) = some (cs, r)) :
    ∃ pre, pre ≠ [] ∧ c0 :: rest = pre ++ r ∧
      ∀ r', parseStrAux stOut (pre ++ r') = some (cs, r') := by
  rcases hres : parseStrAux .jnorm rest with _ | ⟨cs', r''⟩
  · rw [hres] at h; exact absurd h (by simp)
  · rw [hres] at h
    simp only [Option.map_some'] at h
    obtain ⟨pre, hne, heq, hall⟩ := ihrest .jnorm cs' r'' hres
    have hcs : cs = ch :: cs' := by cases h; rfl
    have hr : r = r'' := by cases h; rfl
    subst hcs; subst hr
    refine ⟨c0 :: pre, by simp, by rw [heq]; rfl, fun r' => ?_⟩
    rw [List.cons_append, hstep, hall]
    rfl

theorem parseStrAux_ext : ∀ (i : List Char), ParseExt i := by
  intro i
  induction i with
  | nil =>
    intro st cs r h
    rw [parseStrAux_nil] at h
    exact absurd h (by simp)
  | cons c rest ih =>
    intro st cs r h
    cases st with
    | jnorm =>
      by_cases h1 : c = '"'
      · subst h1
        rw [parseStrAux_quote] at h
        have hcs : cs = [] := by cases h; rfl
        have hr : r = rest := by cases h; rfl
        subst hcs; subst hr
        exact ⟨['"'], by simp, rfl, fun r' => parseStrAux_quote r'⟩
      by_cases h2 : c = '\\'
      · subst h2
        rw [parseStrAux_slash] at h
        exact parseExt_step_call ih parseStrAux_slash h
      by_cases h3 : c.toNat < 32
      · rw [parseStrAux, if_neg h1, if_neg h2, if_pos h3] at h
        exact absurd h (by simp)
      · rw [parseStrAux_other h1 h2 h3] at h
        exact parseExt_step_map ih (fun X => parseStrAux_other h1 h2 h3 X) h
    | jesc =>
      by_cases h1 : c = '"'
      · subst h1
        rw [parseStrAux_esc_quote] at h
        exact parseExt_step_map ih parseStrAux_esc_quote h
      by_cases h2 : c = '\\'
      · subst h2
        rw [parseStrAux_esc_slash] at h
        exact parseExt_step_map ih parseStrAux_esc_slash h
      by_cases h2s : c = '/'
      · subst h2s
        have hstep : ∀ X, parseStrAux .jesc ('/' :: X)
            = (parseStrAux .jnorm X).map (fun p => ('/' :: p.1, p.2)) := by
          intro X
          rw [parseStrAux, if_neg (by decide), if_neg (by decide), if_pos rfl]
        rw [hstep] at h
        exact parseExt_step_map ih hstep h
      by_cases h3 : c = 'b'
      · subst h3
        rw [parseStrAux_esc_b] at h
        exact parseExt_step_map ih parseStrAux_esc_b h
      by_cases h4 : c = 'f'
      · subst h4
        rw [parseStrAux_esc_f] at h
        exact parseExt_step_map ih parseStrAux_esc_f h
      by_cases h5 : c = 'n'
      · subst h5
        rw [parseStrAux_esc_n] at h
        exact parseExt_step_map ih parseStrAux_esc_n h
      by_cases h6 : c = 'r'
      · subst h6
        rw [parseStrAux_esc_r] at h
        exact parseExt_step_map ih parseStrAux_esc_r h
      by_cases h7 : c = 't'
      · subst h7
        rw [parseStrAux_esc_t] at h
        exact parseExt_step_map ih parseStrAux_esc_t h
      by_cases h8 : c = 'u'
      · subst h8
        rw [parseStrAux_esc_u] at h
        exact parseExt_step_call ih parseStrAux_esc_u h
      · rw [parseStrAux, if_neg h1, if_neg h2, if_neg h2s, if_neg h3, if_neg h4, if_neg h5,
          if_neg h6, if_neg h7, if_neg h8] at h
        exact absurd h (by simp)
    | jhex acc n =>
      rcases hx : hexVal c with _ | x
      · rw [parseStrAux, hx] at h
        exact absurd h (by simp)
      by_cases hn : n ≤ 1
      · rw [parseStrAux_hex_last hx hn] at h
        exact parseExt_step_map ih (fun X => parseStrAux_hex_last hx hn acc X) h
      · rw [parseStrAux_hex_step hx hn] at h
        exact parseExt_step_call ih (fun X => parseStrAux_hex_step hx hn acc X) h

theorem parseJString_ext {i : List Char} {s : String} {r : List Char}
    (h : parseJString i = some (s, r)) :
    ∃ pre, 2 ≤ pre.length ∧ i = pre ++ r ∧
      ∀ r', parseJString (pre ++ r') = some (s, r') := by
  match i with
  | [] => exact absurd h (by rw [parseJString] at h; simp at h)
  | c :: rest =>
    rw [parseJString] at h
    by_cases h1 : c = '"'
    · subst h1
      rw [if_pos rfl] at h
      rcases hres : parseStringBody rest with _ | ⟨cs, r''⟩
      · rw [parseStringBody] at hres; rw [parseStringBody, hres] at h
        exact absurd h (by simp)
      · rw [parseStringBody] at hres
        rw [parseStringBody, hres] at h
        simp only [Option.map_some'] at h
        obtain ⟨pre, hne, heq, hall⟩ := parseStrAux_ext rest .jnorm cs r'' hres
        have hs : s = String.mk cs := by cases h; rfl
        have hr : r = r'' := by cases h; rfl
        subst hs; subst hr
        refine ⟨'"' :: pre, ?_, by rw [heq]; rfl, fun r' => ?_⟩
        · match pre, hne with
          | _ :: _, _ => simp
        · rw [List.cons_append, parseJString, if_pos rfl, parseStringBody, hall]
          rfl
    · rw [if_neg h1] at h
      exact absurd h (by simp)

theorem dropExact_none_frame {p a x y : List Char} (hlen : p.length ≤ a.length)
    (h : dropExact p (a ++ x) = none) : dropExact p (a ++ y) = none := by
  induction p generalizing a with
  | nil => rw [dropExact] at h; exact absurd h (by simp)
  | cons q qs ih =>
    match a with
    | [] => simp at hlen
    | c :: cs =>
      rw [List.cons_append, dropExact] at h ⊢
      by_cases hc : c = q
      · rw [if_pos hc] at h ⊢
        exact ih (by simpa using hlen) h
      · rw [if_neg hc]

theorem decodeOne_ext {i : List Char} {op : Operation} {r : List Char}
    (h : decodeOne i = some (op, r)) :
    ∃ pre, pre ≠ [] ∧ i = pre ++ r ∧ ∀ r', decodeOne (pre ++ r') = some (op, r') := by
  rw [decodeOne] at h
  split at h
  case h_1 r1 h1 =>
    -- Set record path
    split at h
    case h_2 => exact absurd h (by simp)
    case h_1 k r2 h2 =>
      split at h
      case h_2 => exact absurd h (by simp)
      case h_1 r3 h3 =>
        split at h
        case h_2 => exact absurd h (by simp)
        case h_1 v r4 h4 =>
          rcases h5 : dropExact closeBB r4 with _ | r5 <;> rw [h5] at h
          case none => exact absurd h (by simp)
          simp only [Option.map_some', Option.some.injEq, Prod.mk.injEq] at h
          obtain ⟨hop, hr⟩ := h
          subst hop; subst hr
          obtain ⟨jp1, hlen1, heqA, hall1⟩ := parseJString_ext h2
          obtain ⟨jp2, hlen2, heqB, hall2⟩ := parseJString_ext h4
          have heqi := dropExact_eq_append h1
          have heqC := dropExact_eq_append h3
          have heqD := dropExact_eq_append h5
          refine ⟨setPre ++ (jp1 ++ (valMid ++ (jp2 ++ closeBB))), by simp [setPre], ?_,
            fun r' => ?_⟩
          · rw [heqi, heqA, heqC, heqB, heqD]; simp
          · rw [show setPre ++ (jp1 ++ (valMid ++ (jp2 ++ closeBB))) ++ r'
                = setPre ++ (jp1 ++ (valMid ++ (jp2 ++ (closeBB ++ r')))) by simp, decodeOne]
            simp only [dropExact_self, hall1, hall2]
            rfl
  case h_2 h1 =>
    split at h
    case h_1 r1 hg =>
      -- legacy Get record path
      split at h
      case h_2 => exact absurd h (by simp)
      case h_1 k r2 h2 =>
        rcases h5 : dropExact closeBB r2 with _ | r3 <;> rw [h5] at h
        case none => exact absurd h (by simp)
        simp only [Option.map_some', Option.some.injEq, Prod.mk.injEq] at h
        obtain ⟨hop, hr⟩ := h
        subst hop; subst hr
        obtain ⟨jp1, hlen1, heqA, hall1⟩ := parseJString_ext h2
        have heqi := dropExact_eq_append hg
        have heqD := dropExact_eq_append h5
        have hipre : i = (getPre ++ (jp1 ++ closeBB)) ++ r3 := by
          rw [heqi, heqA, heqD]; simp
        have hplen : setPre.length ≤ (getPre ++ (jp1 ++ closeBB)).length := by
          simp [setPre, getPre, closeBB]
        refine ⟨getPre ++ (jp1 ++ closeBB), by simp [getPre], hipre, fun r' => ?_⟩
        rw [decodeOne]
        rw [dropExact_none_frame hplen (hipre ▸ h1)]
        rw [show getPre ++ (jp1 ++ closeBB) ++ r' = getPre ++ (jp1 ++ (closeBB ++ r')) by simp]
        simp only [dropExact_self, hall1]
        rfl
    case h_2 hg =>
      split at h
      case h_2 => exact absurd h (by simp)
      case h_1 r1 hr0 =>
        -- Rm record path
        split at h
        case h_2 => exact absurd h (by simp)
        case h_1 k r2 h2 =>
          rcases h5 : dropExact closeBB r2 with _ | r3 <;> rw [h5] at h
          case none => exact absurd h (by simp)
          simp only [Option.map_some', Option.some.injEq, Prod.mk.injEq] at h
          obtain ⟨hop, hr⟩ := h
          subst hop; subst hr
          obtain ⟨jp1, hlen1, heqA, hall1⟩ := parseJString_ext h2
          have heqi := dropExact_eq_append hr0
          have heqD := dropExact_eq_append h5
          have hipre : i = (rmPre ++ (jp1 ++ closeBB)) ++ r3 := by
            rw [heqi, heqA, heqD]; simp
          have hplenS : setPre.length ≤ (rmPre ++ (jp1 ++ closeBB)).length := by
            simp [setPre, rmPre, closeBB]
          have hplenG : getPre.length ≤ (rmPre ++ (jp1 ++ closeBB)).length := by
            simp [getPre, rmPre, closeBB]
          refine ⟨rmPre ++ (jp1 ++ closeBB), by simp [rmPre], hipre, fun r' => ?_⟩
          rw [decodeOne]
          rw [dropExact_none_frame hplenS (hipre ▸ h1)]
          rw [dropExact_none_frame hplenG (hipre ▸ hg)]
          rw [show rmPre ++ (jp1 ++ closeBB) ++ r' = rmPre ++ (jp1 ++ (closeBB ++ r')) by simp]
          simp only [dropExact_self, hall1]
          rfl

theorem decodeOne_length {i : List Char} {op : Operation} {r : List Char}
    (h : decodeOne i = some (op, r)) : r.length < i.length := by
  obtain ⟨pre, hne, heq, -⟩ := decodeOne_ext h
  rw [heq, List.length_append]
  cases pre with
  | nil => exact absurd rfl hne
  | cons c cs => simp

theorem decodeSlice_extend {a : List Char} {op : Operation} (h : decodeSlice a = some op) :
    ∀ r', decodeOne (a ++ r') = some (op, r') := by
  rw [decodeSlice] at h
  split at h
  case h_2 => exact absurd h (by simp)
  case h_1 op' hd =>
    have hop : op' = op := by cases h; rfl
    subst hop
    obtain ⟨pre, hne, heq, hall⟩ := decodeOne_ext hd
    rw [List.append_nil] at heq
    subst heq
    exact hall

theorem decodeOne_slice {a b : List Char} {op : Operation}
    (h : decodeOne (a ++ b) = some (op, b)) : decodeSlice a = some op := by
  obtain ⟨pre, hne, heq, hall⟩ := decodeOne_ext h
  have ha : a = pre := List.append_cancel_right heq
  subst ha
  rw [decodeSlice]
  have := hall []
  rw [List.append_nil] at this
  rw [this]

theorem decodeAllF_nil (f : Nat) : decodeAllF f [] = .ok [] := by
  cases f <;> rw [decodeAllF]

theorem decodeAllF_congr : ∀ (f1 f2 : Nat) (i : List Char), i.length ≤ f1 → i.length ≤ f2 →
    decodeAllF f1 i = decodeAllF f2 i := by
  intro f1
  induction f1 with
  | zero =>
    intro f2 i h1 h2
    have : i = [] := List.eq_nil_of_length_eq_zero (Nat.le_zero.mp h1)
    subst this
    rw [decodeAllF_nil, decodeAllF_nil]
  | succ fv ih =>
    intro f2 i h1 h2
    match i with
    | [] => rw [decodeAllF_nil, decodeAllF_nil]
    | c :: cs =>
      match f2 with
      | 0 => exact absurd h2 (by simp)
      | f2' + 1 =>
        rw [decodeAllF, decodeAllF]
        cases hd : decodeOne (c :: cs) with
        | none => rfl
        | some p =>
          obtain ⟨op, r⟩ := p
          have hlt := decodeOne_length hd
          show Except.map (fun rest => (op, (c :: cs).length - r.length) :: rest) (decodeAllF fv r)
            = Except.map (fun rest => (op, (c :: cs).length - r.length) :: rest) (decodeAllF f2' r)
          rw [ih f2' r (by simp at h1 hlt ⊢; omega) (by simp at h2 hlt ⊢; omega)]

theorem decodeAll_eq_step {i : List Char} (hne : i ≠ []) {op : Operation} {r : List Char}
    (hd : decodeOne i = some (op, r)) :
    decodeAll i = (decodeAll r).map (fun rest => (op, i.length - r.length) :: rest) := by
  obtain ⟨c, cs, rfl⟩ := List.exists_cons_of_ne_nil hne
  show decodeAllF (c :: cs).length (c :: cs) = _
  rw [List.length_cons, decodeAllF, hd]
  have hr : r.length ≤ cs.length := by
    have := decodeOne_length hd
    simp at this
    omega
  show Except.map (fun rest => (op, cs.length + 1 - r.length) :: rest) (decodeAllF cs.length r)
    = Except.map (fun rest => (op, cs.length + 1 - r.length) :: rest) (decodeAll r)
  rw [decodeAllF_congr cs.length r.length r hr (Nat.le_refl _)]
  rfl

theorem decodeAll_eq_error {i : List Char} (hne : i ≠ []) (hd : decodeOne i = none) :
    decodeAll i = .error () := by
  obtain ⟨c, cs, rfl⟩ := List.exists_cons_of_ne_nil hne
  show decodeAllF (c :: cs).length (c :: cs) = _
  rw [List.length_cons, decodeAllF, hd]

theorem decodeAll_append : ∀ (n : Nat) (L : List Char), L.length ≤ n →
    ∀ (recs : List (Operation × Nat)) (X : List Char), decodeAll L = .ok recs →
      decodeAll (L ++ X) = (decodeAll X).map (fun xr => recs ++ xr) := by
  intro n
  induction n with
  | zero =>
    intro L hL recs X h
    have : L = [] := List.eq_nil_of_length_eq_zero (Nat.le_zero.mp hL)
    subst this
    have : recs = [] := by
      rw [show decodeAll [] = .ok [] from rfl] at h
      cases h; rfl
    subst this
    rw [List.nil_append]
    cases decodeAll X <;> rfl
  | succ nv ih =>
    intro L hL recs X h
    match L with
    | [] =>
      have : recs = [] := by
        rw [show decodeAll [] = .ok [] from rfl] at h
        cases h; rfl
      subst this
      rw [List.nil_append]
      cases decodeAll X <;> rfl
    | c :: cs =>
      cases hd : decodeOne (c :: cs) with
      | none =>
        rw [decodeAll_eq_error (by simp) hd] at h
        exact absurd h (by simp)
      | some p =>
        obtain ⟨op, r⟩ := p
        rw [decodeAll_eq_step (by simp) hd] at h
        rcases hrec : decodeAll r with e | recs' <;> rw [hrec] at h
        case error => exact absurd h (by simp [Except.map])
        have hrecs : recs = (op, (c :: cs).length - r.length) :: recs' := by cases h; rfl
        subst hrecs
        have hlt := decodeOne_length hd
        obtain ⟨pre, hpne, hpeq, hall⟩ := decodeOne_ext hd
        have hdX : decodeOne ((c :: cs) ++ X) = some (op, r ++ X) := by
          rw [hpeq, List.append_assoc]
          exact hall (r ++ X)
        rw [decodeAll_eq_step (by simp) hdX]
        have hih := ih r (by simp at hL hlt ⊢; omega) recs' X hrec
        rw [hih]
        rcases decodeAll X with e | xr
        · rfl
        · show Except.ok _ = Except.ok _
          have hlen : ((c :: cs) ++ X).length - (r ++ X).length
              = (c :: cs).length - r.length := by
            simp
            omega
          rw [hlen]
          rfl

-- ### Association-list (HashMap) lemmas

theorem lookup_mem {k : String} {pl : Nat × Nat} : ∀ {st : StoreMap},
    lookupStore k st = some pl → (k, pl) ∈ st := by
  intro st h
  induction st with
  | nil => exact absurd h (by rw [lookupStore] at h; simp at h)
  | cons e rest ih =>
    obtain ⟨k', pl'⟩ := e
    rw [lookupStore] at h
    by_cases hk : k' = k
    · rw [if_pos hk] at h
      subst hk
      have : pl' = pl := by cases h; rfl
      subst this
      exact List.mem_cons_self ..
    · rw [if_neg hk] at h
      exact List.mem_cons_of_mem _ (ih h)

theorem lookup_mapInsert_self (k : String) (pl : Nat × Nat) : ∀ (st : StoreMap),
    lookupStore k (mapInsert k pl st).2 = some pl := by
  intro st
  induction st with
  | nil => simp [mapInsert, lookupStore]
  | cons e rest ih =>
    obtain ⟨k', pl'⟩ := e
    rw [mapInsert]
    by_cases hk : k' = k
    · rw [if_pos hk]
      simp [lookupStore]
    · rw [if_neg hk]
      simpa [lookupStore, hk] using ih

theorem lookup_mapInsert_ne {k k' : String} (hne : k' ≠ k) (pl : Nat × Nat) : ∀ (st : StoreMap),
    lookupStore k' (mapInsert k pl st).2 = lookupStore k' st := by
  intro st
  induction st with
  | nil =>
    show lookupStore k' [(k, pl)] = none
    rw [lookupStore, if_neg (fun h => hne h.symm), lookupStore]
  | cons e rest ih =>
    obtain ⟨k'', pl'⟩ := e
    rw [mapInsert]
    by_cases hk : k'' = k
    · rw [if_pos hk]
      subst hk
      rw [lookupStore, lookupStore, if_neg (fun h => hne h.symm),
        if_neg (fun h => hne h.symm)]
    · rw [if_neg hk]
      simp only [lookupStore]
      by_cases hk2 : k'' = k'
      · rw [if_pos hk2, if_pos hk2]
      · rw [if_neg hk2, if_neg hk2, ih]

theorem mapInsert_fst (k : String) (pl : Nat × Nat) : ∀ (st : StoreMap),
    (mapInsert k pl st).1 = lookupStore k st := by
  intro st
  induction st with
  | nil => simp [mapInsert, lookupStore]
  | cons e rest ih =>
    obtain ⟨k', pl'⟩ := e
    rw [mapInsert, lookupStore]
    by_cases hk : k' = k
    · rw [if_pos hk, if_pos hk]
    · rw [if_neg hk, if_neg hk]
      exact ih

theorem mapInsert_mem {k : String} {pl : Nat × Nat} {e : String × Nat × Nat} :
    ∀ {st : StoreMap}, e ∈ (mapInsert k pl st).2 → e = (k, pl) ∨ e ∈ st := by
  intro st h
  induction st with
  | nil => simpa [mapInsert] using h
  | cons e' rest ih =>
    obtain ⟨k', pl'⟩ := e'
    rw [mapInsert] at h
    by_cases hk : k' = k
    · rw [if_pos hk] at h
      rcases List.mem_cons.mp h with h1 | h1
      · exact Or.inl h1
      · exact Or.inr (List.mem_cons_of_mem _ h1)
    · rw [if_neg hk] at h
      rcases List.mem_cons.mp h with h1 | h1
      · exact Or.inr (h1 ▸ List.mem_cons_self ..)
      · rcases ih h1 with h2 | h2
        · exact Or.inl h2
        · exact Or.inr (List.mem_cons_of_mem _ h2)

theorem mapInsert_absent {k : String} (pl : Nat × Nat) : ∀ {st : StoreMap},
    lookupStore k st = none → mapInsert k pl st = (none, st ++ [(k, pl)]) := by
  intro st h
  induction st with
  | nil => rfl
  | cons e rest ih =>
    obtain ⟨k', pl'⟩ := e
    rw [lookupStore] at h
    by_cases hk : k' = k
    · rw [if_pos hk] at h
      exact absurd h (by simp)
    · rw [if_neg hk] at h
      rw [mapInsert, if_neg hk, ih h]
      rfl

theorem mapInsert_keys_nodup {k : String} (pl : Nat × Nat) : ∀ {st : StoreMap},
    (st.map Prod.fst).Nodup → (((mapInsert k pl st).2).map Prod.fst).Nodup := by
  intro st h
  induction st with
  | nil => simp [mapInsert]
  | cons e rest ih =>
    obtain ⟨k', pl'⟩ := e
    simp only [List.map_cons, List.nodup_cons] at h
    obtain ⟨hk', hrest⟩ := h
    rw [mapInsert]
    by_cases hk : k' = k
    · rw [if_pos hk]
      subst hk
      simp only [List.map_cons, List.nodup_cons]
      exact ⟨hk', hrest⟩
    · rw [if_neg hk]
      simp only [List.map_cons, List.nodup_cons]
      refine ⟨fun hmem => ?_, ih hrest⟩
      rcases List.mem_map.mp hmem with ⟨e2, hmem2, hfst⟩
      rcases mapInsert_mem hmem2 with h2 | h2
      · exact hk (by rw [h2] at hfst; exact hfst.symm)
      · exact hk' (List.mem_map.mpr ⟨e2, h2, hfst⟩)

theorem mapRemove_fst (k : String) : ∀ (st : StoreMap),
    (mapRemove k st).1 = lookupStore k st := by
  intro st
  induction st with
  | nil => rfl
  | cons e rest ih =>
    obtain ⟨k', pl'⟩ := e
    rw [mapRemove, lookupStore]
    by_cases hk : k' = k
    · rw [if_pos hk, if_pos hk]
    · rw [if_neg hk, if_neg hk]
      exact ih

theorem mapRemove_mem {k : String} {e : String × Nat × Nat} : ∀ {st : StoreMap},
    e ∈ (mapRemove k st).2 → e ∈ st := by
  intro st h
  induction st with
  | nil => simpa [mapRemove] using h
  | cons e' rest ih =>
    obtain ⟨k', pl'⟩ := e'
    rw [mapRemove] at h
    by_cases hk : k' = k
    · rw [if_pos hk] at h
      exact List.mem_cons_of_mem _ h
    · rw [if_neg hk] at h
      rcases List.mem_cons.mp h with h1 | h1
      · exact h1 ▸ List.mem_cons_self ..
      · exact List.mem_cons_of_mem _ (ih h1)

theorem mapRemove_none {k : String} : ∀ {st : StoreMap},
    lookupStore k st = none → mapRemove k st = (none, st) := by
  intro st h
  induction st with
  | nil => rfl
  | cons e rest ih =>
    obtain ⟨k', pl'⟩ := e
    rw [lookupStore] at h
    by_cases hk : k' = k
    · rw [if_pos hk] at h
      exact absurd h (by simp)
    · rw [if_neg hk] at h
      rw [mapRemove, if_neg hk, ih h]

theorem mapRemove_keys_nodup {k : String} : ∀ {st : StoreMap},
    (st.map Prod.fst).Nodup → (((mapRemove k st).2).map Prod.fst).Nodup := by
  intro st h
  induction st with
  | nil => simpa [mapRemove] using h
  | cons e rest ih =>
    obtain ⟨k', pl'⟩ := e
    simp only [List.map_cons, List.nodup_cons] at h
    obtain ⟨hk', hrest⟩ := h
    rw [mapRemove]
    by_cases hk : k' = k
    · rw [if_pos hk]
      exact hrest
    · rw [if_neg hk]
      simp only [List.map_cons, List.nodup_cons]
      refine ⟨fun hmem => ?_, ih hrest⟩
      rcases List.mem_map.mp hmem with ⟨e2, hmem2, hfst⟩
      exact hk' (List.mem_map.mpr ⟨e2, mapRemove_mem hmem2, hfst⟩)

theorem lookup_mapRemove_self (k : String) : ∀ {st : StoreMap},
    (st.map Prod.fst).Nodup → lookupStore k (mapRemove k st).2 = none := by
  intro st hnd
  induction st with
  | nil => rfl
  | cons e rest ih =>
    obtain ⟨k', pl'⟩ := e
    simp only [List.map_cons, List.nodup_cons] at hnd
    obtain ⟨hk', hrest⟩ := hnd
    rw [mapRemove]
    by_cases hk : k' = k
    · rw [if_pos hk]
      subst hk
      cases hl : lookupStore k' rest with
      | none => rfl
      | some pl =>
        exact absurd (List.mem_map.mpr ⟨(k', pl), lookup_mem hl, rfl⟩) hk'
    · rw [if_neg hk]
      simp only [lookupStore, if_neg hk]
      exact ih hrest

theorem lookup_mapRemove_ne {k k' : String} (hne : k' ≠ k) : ∀ (st : StoreMap),
    lookupStore k' (mapRemove k st).2 = lookupStore k' st := by
  intro st
  induction st with
  | nil => rfl
  | cons e rest ih =>
    obtain ⟨k'', pl'⟩ := e
    rw [mapRemove]
    by_cases hk : k'' = k
    · rw [if_pos hk]
      subst hk
      rw [lookupStore, if_neg (fun h => hne h.symm)]
    · rw [if_neg hk]
      simp only [lookupStore]
      by_cases hk2 : k'' = k'
      · rw [if_pos hk2, if_pos hk2]
      · rw [if_neg hk2, if_neg hk2, ih]

theorem lookup_append_none {k : String} {y : StoreMap} : ∀ {st : StoreMap},
    lookupStore k st = none → lookupStore k (st ++ y) = lookupStore k y := by
  intro st h
  induction st with
  | nil => rfl
  | cons e rest ih =>
    obtain ⟨k', pl'⟩ := e
    rw [lookupStore] at h
    by_cases hk : k' = k
    · rw [if_pos hk] at h
      exact absurd h (by simp)
    · rw [if_neg hk] at h
      rw [List.cons_append, lookupStore, if_neg hk]
      exact ih h

-- ### Slice and entry lemmas

theorem sliceAt_append {L X : List Char} {p n : Nat} (h : p + n ≤ L.length) :
    sliceAt (L ++ X) p n = sliceAt L p n := by
  rw [sliceAt, sliceAt, List.drop_append_eq_append_drop,
    show p - L.length = 0 by omega, List.drop_zero, List.take_append_eq_append_take,
    show n - (L.drop p).length = 0 by rw [List.length_drop]; omega,
    List.take_zero, List.append_nil]

theorem sliceAt_append_self (L E : List Char) : sliceAt (L ++ E) L.length E.length = E := by
  rw [sliceAt, List.drop_left, List.take_length]

theorem sliceAt_append_mid {E : List Char} {n : Nat} (h : E.length = n) (P X : List Char) :
    sliceAt (P ++ (E ++ X)) P.length n = E := by
  rw [sliceAt, List.drop_left, List.take_left' h]

theorem sliceAt_length {L : List Char} {p n : Nat} (h : p + n ≤ L.length) :
    (sliceAt L p n).length = n := by
  rw [sliceAt, List.length_take, List.length_drop]
  omega

theorem entryOk_append {log X : List Char} {e : String × Nat × Nat} (h : entryOk log e) :
    entryOk (log ++ X) e := by
  obtain ⟨hb, hs⟩ := h
  refine ⟨by rw [List.length_append]; omega, ?_⟩
  rw [sliceAt_append hb]
  exact hs

theorem decodeSlice_encodeOp (op : Operation) : decodeSlice (encodeOp op) = some op := by
  have h := decodeOne_encodeOp op []
  rw [List.append_nil] at h
  rw [decodeSlice, h]

theorem isSetFor_elim {k : String} {o : Option Operation} (h : isSetFor k o = true) :
    ∃ v, o = some (.Set k v) := by
  cases o with
  | none => rw [isSetFor] at h; exact absurd h (by simp)
  | some op =>
    cases op with
    | Set k' v =>
      rw [isSetFor] at h
      exact ⟨v, by rw [of_decide_eq_true h]⟩
    | Get k' => rw [isSetFor] at h; exact absurd h (by simp)
    | Rm k' => rw [isSetFor] at h; exact absurd h (by simp)

theorem isSetFor_self (k v : String) : isSetFor k (some (.Set k v)) = true := by
  rw [isSetFor]
  exact decide_eq_true rfl

theorem get_eq_absGet {s : KvStore} (h : IndexOk s) (k : String) :
    s.get k = .ok (s.absGet k) := by
  rw [KvStore.get, KvStore.absGet]
  cases hl : lookupStore k s.store with
  | none => rfl
  | some pl =>
    obtain ⟨pos, len⟩ := pl
    obtain ⟨hbound, hset⟩ := h.2 _ (lookup_mem hl)
    obtain ⟨v, hv⟩ := isSetFor_elim hset
    have hb : pos + len ≤ s.log.length := hbound
    have hv' : decodeSlice (sliceAt s.log pos len) = some (.Set k v) := hv
    simp only [hv', if_pos hb]

theorem absGet_none {s : KvStore} {k : String} (hl : lookupStore k s.store = none) :
    s.absGet k = none := by
  rw [KvStore.absGet, hl]

theorem absGet_of_lookup {s : KvStore} (h : IndexOk s) {k : String} {pos len : Nat}
    (hl : lookupStore k s.store = some (pos, len)) :
    ∃ v, s.absGet k = some v ∧ decodeSlice (sliceAt s.log pos len) = some (.Set k v)
      ∧ pos + len ≤ s.log.length := by
  obtain ⟨hbound, hset⟩ := h.2 _ (lookup_mem hl)
  obtain ⟨v, hv⟩ := isSetFor_elim hset
  have hb : pos + len ≤ s.log.length := hbound
  have hv' : decodeSlice (sliceAt s.log pos len) = some (.Set k v) := hv
  refine ⟨v, ?_, hv', hb⟩
  rw [KvStore.absGet, hl]
  simp only [hv']

theorem lookup_none_of_absGet {s : KvStore} (h : IndexOk s) {k : String}
    (ha : s.absGet k = none) : lookupStore k s.store = none := by
  cases hl : lookupStore k s.store with
  | none => rfl
  | some pl =>
    obtain ⟨pos, len⟩ := pl
    obtain ⟨v, hv, -, -⟩ := absGet_of_lookup h hl
    rw [ha] at hv
    exact absurd hv (by simp)

theorem sumLens_cons (r : Operation × Nat) (rest : List (Operation × Nat)) :
    sumLens (r :: rest) = r.2 + sumLens rest := rfl

theorem decodeAll_slicesOk_aux : ∀ (n : Nat) (X : List Char), X.length ≤ n →
    ∀ (P : List Char) (recs : List (Operation × Nat)), decodeAll X = .ok recs →
      SlicesOk (P ++ X) P.length recs := by
  intro n
  induction n with
  | zero =>
    intro X hX P recs h
    have hnil : X = [] := List.eq_nil_of_length_eq_zero (Nat.le_zero.mp hX)
    subst hnil
    have : recs = [] := by
      rw [show decodeAll [] = .ok [] from rfl] at h
      cases h; rfl
    subst this
    rw [SlicesOk]
    simp
  | succ nv ih =>
    intro X hX P recs h
    match X with
    | [] =>
      have : recs = [] := by
        rw [show decodeAll [] = .ok [] from rfl] at h
        cases h; rfl
      subst this
      rw [SlicesOk]
      simp
    | c :: cs =>
      cases hd : decodeOne (c :: cs) with
      | none =>
        rw [decodeAll_eq_error (by simp) hd] at h
        exact absurd h (by simp)
      | some p =>
        obtain ⟨op, r⟩ := p
        rw [decodeAll_eq_step (by simp) hd] at h
        rcases hrec : decodeAll r with e | recs' <;> rw [hrec] at h
        case error => exact absurd h (by simp [Except.map])
        have hrecs : recs = (op, (c :: cs).length - r.length) :: recs' := by cases h; rfl
        subst hrecs
        obtain ⟨pre, hpne, hpeq, hall⟩ := decodeOne_ext hd
        have hrlen := decodeOne_length hd
        have hprelen : pre.length = (c :: cs).length - r.length := by
          rw [hpeq, List.length_append]
          omega
        have hpre1 : 1 ≤ pre.length := by
          cases pre with
          | nil => exact absurd rfl hpne
          | cons a as => simp
        rw [SlicesOk]
        refine ⟨by omega, ?_, ?_, ?_⟩
        · simp only [List.length_append]
          omega
        · show decodeSlice (sliceAt (P ++ (c :: cs)) P.length ((c :: cs).length - r.length))
            = some op
          rw [← hprelen, hpeq, sliceAt_append_mid rfl]
          exact decodeOne_slice (hpeq ▸ hd)
        · have hih := ih r (by omega) (P ++ pre) recs' hrec
          rw [List.append_assoc, ← hpeq] at hih
          rw [show (P ++ pre).length = P.length + ((c :: cs).length - r.length) by
            rw [List.length_append, hprelen]] at hih
          exact hih

theorem decodeAll_slicesOk {L : List Char} {recs : List (Operation × Nat)}
    (h : decodeAll L = .ok recs) : SlicesOk L 0 recs := by
  have := decodeAll_slicesOk_aux L.length L (Nat.le_refl _) [] recs h
  simpa using this

theorem slicesOk_sum {L : List Char} : ∀ {recs : List (Operation × Nat)} {pos : Nat},
    SlicesOk L pos recs → pos + sumLens recs = L.length := by
  intro recs
  induction recs with
  | nil =>
    intro pos h
    rw [SlicesOk] at h
    rw [h, sumLens, Nat.add_zero]
  | cons r rest ih =>
    intro pos h
    rw [SlicesOk] at h
    have := ih h.2.2.2
    rw [sumLens_cons]
    omega

theorem decodeAll_sum {L : List Char} {recs : List (Operation × Nat)}
    (h : decodeAll L = .ok recs) : sumLens recs = L.length := by
  have := slicesOk_sum (decodeAll_slicesOk h)
  omega

-- ### Replay lemmas

theorem replay_nil (pos : Nat) (st : StoreMap) (unc : Nat) : replay [] pos st unc = (st, unc) :=
  rfl

theorem replay_set (key val : String) (n : Nat) (rest : List (Operation × Nat)) (pos : Nat)
    (st : StoreMap) (unc : Nat) :
    replay ((Operation.Set key val, n) :: rest) pos st unc
      = replay rest (pos + n) (mapInsert key (pos, n) st).2
          (unc + oldLen (mapInsert key (pos, n) st).1) := rfl

theorem replay_rm (key : String) (n : Nat) (rest : List (Operation × Nat)) (pos : Nat)
    (st : StoreMap) (unc : Nat) :
    replay ((Operation.Rm key, n) :: rest) pos st unc
      = replay rest (pos + n) (mapRemove key st).2
          (unc + oldLen (mapRemove key st).1 + n) := rfl

theorem replay_get (key : String) (n : Nat) (rest : List (Operation × Nat)) (pos : Nat)
    (st : StoreMap) (unc : Nat) :
    replay ((Operation.Get key, n) :: rest) pos st unc = replay rest (pos + n) st unc := rfl

theorem replay_append : ∀ (a b : List (Operation × Nat)) (pos : Nat) (st : StoreMap) (unc : Nat),
    replay (a ++ b) pos st unc
      = replay b (pos + sumLens a) (replay a pos st unc).1 (replay a pos st unc).2 := by
  intro a
  induction a with
  | nil =>
    intro b pos st unc
    rw [List.nil_append, replay_nil, sumLens, Nat.add_zero]
  | cons r rest ih =>
    intro b pos st unc
    obtain ⟨op, n⟩ := r
    rw [sumLens_cons]
    cases op with
    | Set key val =>
      rw [List.cons_append, replay_set, replay_set, ih]
      rw [show pos + (n + sumLens rest) = pos + n + sumLens rest from
        (Nat.add_assoc pos n (sumLens rest)).symm]
    | Rm key =>
      rw [List.cons_append, replay_rm, replay_rm, ih]
      rw [show pos + (n + sumLens rest) = pos + n + sumLens rest from
        (Nat.add_assoc pos n (sumLens rest)).symm]
    | Get key =>
      rw [List.cons_append, replay_get, replay_get, ih]
      rw [show pos + (n + sumLens rest) = pos + n + sumLens rest from
        (Nat.add_assoc pos n (sumLens rest)).symm]

theorem replay_nodup : ∀ (recs : List (Operation × Nat)) (pos : Nat) (st : StoreMap) (unc : Nat),
    (st.map Prod.fst).Nodup → (((replay recs pos st unc).1).map Prod.fst).Nodup := by
  intro recs
  induction recs with
  | nil => intro pos st unc h; rw [replay_nil]; exact h
  | cons r rest ih =>
    intro pos st unc h
    obtain ⟨op, n⟩ := r
    cases op with
    | Set key val => rw [replay_set]; exact ih _ _ _ (mapInsert_keys_nodup _ h)
    | Rm key => rw [replay_rm]; exact ih _ _ _ (mapRemove_keys_nodup h)
    | Get key => rw [replay_get]; exact ih _ _ _ h

theorem replay_entries {L : List Char} :
    ∀ (recs : List (Operation × Nat)) (pos : Nat) (st : StoreMap) (unc : Nat),
      SlicesOk L pos recs → (∀ e ∈ st, entryOk L e) →
      ∀ e ∈ (replay recs pos st unc).1, entryOk L e := by
  intro recs
  induction recs with
  | nil =>
    intro pos st unc hs hst e he
    rw [replay_nil] at he
    exact hst e he
  | cons r rest ih =>
    intro pos st unc hs hst e he
    obtain ⟨op, n⟩ := r
    rw [SlicesOk] at hs
    obtain ⟨h1, h2, h3, h4⟩ := hs
    cases op with
    | Set key val =>
      rw [replay_set] at he
      refine ih _ _ _ h4 ?_ e he
      intro e' he'
      rcases mapInsert_mem he' with h5 | h5
      · subst h5
        exact ⟨h2, by rw [h3]; exact isSetFor_self key val⟩
      · exact hst e' h5
    | Rm key =>
      rw [replay_rm] at he
      exact ih _ _ _ h4 (fun e' he' => hst e' (mapRemove_mem he')) e he
    | Get key =>
      rw [replay_get] at he
      exact ih _ _ _ h4 hst e he

-- ### Open establishes the invariant

theorem openStore_eq_ok {l : List Char} {s : KvStore} (h : KvStore.openStore l = .ok s) :
    ∃ recs, decodeAll l = .ok recs
      ∧ s = ⟨(replay recs 0 [] 0).1, l, (replay recs 0 [] 0).2⟩ := by
  rw [KvStore.openStore] at h
  cases hda : decodeAll l with
  | error e => rw [hda] at h; exact absurd h (by simp)
  | ok recs =>
    rw [hda] at h
    refine ⟨recs, rfl, ?_⟩
    cases h
    rfl

theorem openStore_indexOk {l : List Char} {s : KvStore} (h : KvStore.openStore l = .ok s) :
    IndexOk s := by
  obtain ⟨recs, hda, hs⟩ := openStore_eq_ok h
  subst hs
  exact ⟨replay_nodup recs 0 [] 0 (by simp),
    replay_entries recs 0 [] 0 (decodeAll_slicesOk hda) (by simp)⟩

theorem openStore_inv {l : List Char} {s : KvStore} (h : KvStore.openStore l = .ok s) :
    StoreInv s := by
  refine ⟨openStore_indexOk h, ?_⟩
  obtain ⟨recs, hda, hs⟩ := openStore_eq_ok h
  subst hs
  exact ⟨recs, hda, fun k => rfl⟩

theorem compactLoop_eq (log : List Char) : ∀ (st : StoreMap) (c0 : List Char),
    compactLoop log st c0 = (reposition log st c0.length, c0 ++ chunksOf log st) := by
  intro st
  induction st with
  | nil =>
    intro c0
    rw [compactLoop, reposition, chunksOf, List.append_nil]
  | cons e rest ih =>
    intro c0
    obtain ⟨k, pl⟩ := e
    rw [compactLoop, ih, reposition, chunksOf]
    simp [List.length_append, List.append_assoc]

theorem reposition_keys (log : List Char) : ∀ (st : StoreMap) (base : Nat),
    (reposition log st base).map Prod.fst = st.map Prod.fst := by
  intro st
  induction st with
  | nil => intro base; rfl
  | cons e rest ih =>
    intro base
    rw [reposition, List.map_cons, List.map_cons, ih]

theorem chunksOf_length (log : List Char) : ∀ (st : StoreMap),
    (∀ e ∈ st, entryOk log e) →
    (chunksOf log st).length = (st.map (fun e => e.2.2)).sum := by
  intro st
  induction st with
  | nil => intro h; rfl
  | cons e rest ih =>
    intro h
    rw [chunksOf, List.length_append, List.map_cons, List.sum_cons,
      sliceAt_length (h e (List.mem_cons_self ..)).1,
      ih (fun e' he' => h e' (List.mem_cons_of_mem _ he'))]

theorem reposition_entries (log : List Char) : ∀ (st : StoreMap) (P : List Char),
    (∀ e ∈ st, entryOk log e) →
    ∀ e' ∈ reposition log st P.length,
      e'.2.1 + e'.2.2 ≤ (P ++ chunksOf log st).length ∧
      ∃ e ∈ st, e'.1 = e.1 ∧ e'.2.2 = e.2.2 ∧
        sliceAt (P ++ chunksOf log st) e'.2.1 e'.2.2 = sliceAt log e.2.1 e.2.2 := by
  intro st
  induction st with
  | nil =>
    intro P h e' he'
    rw [reposition] at he'
    exact absurd he' (by simp)
  | cons e rest ih =>
    intro P h e' he'
    obtain ⟨hbound, hset⟩ := h e (List.mem_cons_self ..)
    have hlen : (sliceAt log e.2.1 e.2.2).length = e.2.2 := sliceAt_length hbound
    rw [reposition] at he'
    rcases List.mem_cons.mp he' with h1 | h1
    · subst h1
      refine ⟨?_, e, List.mem_cons_self .., rfl, rfl, ?_⟩
      · show P.length + e.2.2 ≤ (P ++ chunksOf log (e :: rest)).length
        rw [chunksOf, List.length_append, List.length_append, hlen]
        omega
      · show sliceAt (P ++ chunksOf log (e :: rest)) P.length e.2.2 = sliceAt log e.2.1 e.2.2
        rw [chunksOf, sliceAt_append_mid hlen]
    · have hih := ih (P ++ sliceAt log e.2.1 e.2.2)
        (fun e2 he2 => h e2 (List.mem_cons_of_mem _ he2)) e'
      rw [List.length_append] at hih
      have hih2 := hih h1
      rw [List.append_assoc] at hih2
      obtain ⟨hb, e2, he2, hfst, hsnd, hslice⟩ := hih2
      exact ⟨by rw [chunksOf]; exact hb, e2, List.mem_cons_of_mem _ he2, hfst, hsnd, by
        rw [chunksOf]; exact hslice⟩

theorem reposition_lookup (log : List Char) : ∀ (st : StoreMap) (P : List Char),
    (∀ e ∈ st, entryOk log e) → ∀ (k : String),
    (lookupStore k st = none → lookupStore k (reposition log st P.length) = none) ∧
    (∀ p l, lookupStore k st = some (p, l) →
      ∃ p', lookupStore k (reposition log st P.length) = some (p', l) ∧
        p' + l ≤ (P ++ chunksOf log st).length ∧
        sliceAt (P ++ chunksOf log st) p' l = sliceAt log p l) := by
  intro st
  induction st with
  | nil =>
    intro P h k
    exact ⟨fun _ => rfl, fun p l hl => absurd hl (by rw [lookupStore]; simp)⟩
  | cons e rest ih =>
    intro P h k
    obtain ⟨k0, p0, l0⟩ := e
    obtain ⟨hbound, hset⟩ := h _ (List.mem_cons_self ..)
    have hlen : (sliceAt log (k0, p0, l0).2.1 (k0, p0, l0).2.2).length = l0 :=
      sliceAt_length hbound
    have hrest := fun e2 he2 => h e2 (List.mem_cons_of_mem _ he2)
    constructor
    · intro hl
      rw [lookupStore] at hl
      by_cases hk : k0 = k
      · rw [if_pos hk] at hl
        exact absurd hl (by simp)
      · rw [if_neg hk] at hl
        rw [reposition, lookupStore, if_neg hk]
        have hih := (ih (P ++ sliceAt log (k0, p0, l0).2.1 (k0, p0, l0).2.2) hrest k).1 hl
        rw [List.length_append] at hih
        exact hih
    · intro p l hl
      rw [lookupStore] at hl
      by_cases hk : k0 = k
      · rw [if_pos hk] at hl
        have hp : p0 = p ∧ l0 = l := by
          constructor <;> cases hl <;> rfl
        obtain ⟨hp0, hl0⟩ := hp
        subst hp0; subst hl0
        refine ⟨P.length, ?_, ?_, ?_⟩
        · rw [reposition, lookupStore, if_pos hk]
        · rw [chunksOf, List.length_append, List.length_append, hlen]
          omega
        · rw [chunksOf, sliceAt_append_mid hlen]
      · rw [if_neg hk] at hl
        have hih := (ih (P ++ sliceAt log (k0, p0, l0).2.1 (k0, p0, l0).2.2) hrest k).2 p l hl
        rw [List.length_append] at hih
        obtain ⟨p', hlook, hb, hslice⟩ := hih
        rw [List.append_assoc] at hb hslice
        refine ⟨p', ?_, by rw [chunksOf]; exact hb, by rw [chunksOf]; exact hslice⟩
        rw [reposition, lookupStore, if_neg hk]
        exact hlook

theorem decodeSlice_nil : decodeSlice ([] : List Char) = none := rfl

theorem chunks_replay (log : List Char) : ∀ (st : StoreMap),
    (st.map Prod.fst).Nodup → (∀ e ∈ st, entryOk log e) →
    ∀ (P : List Char) (st0 : StoreMap) (unc0 : Nat),
      (∀ e ∈ st, lookupStore e.1 st0 = none) →
      ∃ recs, decodeAll (chunksOf log st) = .ok recs ∧
        replay recs P.length st0 unc0 = (st0 ++ reposition log st P.length, unc0) ∧
        List.Forall₂ (fun (rec0 : Operation × Nat) (e : String × Nat × Nat) =>
          (∃ v, rec0.1 = Operation.Set e.1 v) ∧ rec0.2 = e.2.2) recs st := by
  intro st
  induction st with
  | nil =>
    intro hnd hok P st0 unc0 hdis
    refine ⟨[], rfl, ?_, List.Forall₂.nil⟩
    rw [replay_nil, reposition, List.append_nil]
  | cons e rest ih =>
    intro hnd hok P st0 unc0 hdis
    obtain ⟨k0, p0, l0⟩ := e
    obtain ⟨hbound, hset⟩ := hok _ (List.mem_cons_self ..)
    obtain ⟨v, hv⟩ := isSetFor_elim hset
    have hlen : (sliceAt log (k0, p0, l0).2.1 (k0, p0, l0).2.2).length = l0 :=
      sliceAt_length hbound
    have hchne : sliceAt log (k0, p0, l0).2.1 (k0, p0, l0).2.2 ≠ [] := by
      intro hc
      rw [hc, decodeSlice_nil] at hv
      exact absurd hv (by simp)
    simp only [List.map_cons, List.nodup_cons] at hnd
    obtain ⟨hk0, hndrest⟩ := hnd
    have hrestok := fun e2 he2 => hok e2 (List.mem_cons_of_mem _ he2)
    have hdis' : ∀ e2 ∈ rest, lookupStore e2.1 (st0 ++ [(k0, (P.length, l0))]) = none := by
      intro e2 he2
      have hne : e2.1 ≠ k0 := by
        intro hq
        exact hk0 (List.mem_map.mpr ⟨e2, he2, hq⟩)
      rw [lookup_append_none (hdis e2 (List.mem_cons_of_mem _ he2)), lookupStore,
        if_neg (fun hq => hne hq.symm), lookupStore]
    obtain ⟨recs', hda', hrep', hfa'⟩ := ih hndrest hrestok
      (P ++ sliceAt log (k0, p0, l0).2.1 (k0, p0, l0).2.2)
      (st0 ++ [(k0, (P.length, l0))]) unc0 hdis'
    have hext := decodeSlice_extend hv (chunksOf log rest)
    have hne2 : sliceAt log (k0, p0, l0).2.1 (k0, p0, l0).2.2 ++ chunksOf log rest ≠ [] := by
      intro hc
      exact hchne (List.append_eq_nil.mp hc).1
    have hstep := decodeAll_eq_step hne2 hext
    rw [hda'] at hstep
    have hconsume : (sliceAt log (k0, p0, l0).2.1 (k0, p0, l0).2.2
        ++ chunksOf log rest).length - (chunksOf log rest).length = l0 := by
      rw [List.length_append, hlen]
      omega
    refine ⟨(Operation.Set k0 v, l0) :: recs', ?_, ?_, ?_⟩
    · rw [chunksOf]
      rw [hstep, hconsume]
      rfl
    · rw [replay_set]
      rw [mapInsert_absent _ (hdis _ (List.mem_cons_self ..))]
      show replay recs' (P.length + l0) (st0 ++ [(k0, (P.length, l0))]) (unc0 + 0)
        = (st0 ++ reposition log ((k0, (p0, l0)) :: rest) P.length, unc0)
      rw [Nat.add_zero, reposition]
      rw [show P.length + l0
          = (P ++ sliceAt log (k0, p0, l0).2.1 (k0, p0, l0).2.2).length by
        rw [List.length_append, hlen]]
      rw [hrep']
      rw [List.length_append, hlen]
      simp [List.append_assoc]
    · exact List.Forall₂.cons ⟨⟨v, rfl⟩, rfl⟩ hfa'

theorem compact_store (s : KvStore) :
    s.compact = ⟨reposition s.log s.store 0, chunksOf s.log s.store, 0⟩ := by
  rw [KvStore.compact, KvStore.compactRun, compactLoop_eq]
  rfl

theorem indexOk_compact {s : KvStore} (h : IndexOk s) : IndexOk s.compact := by
  rw [compact_store]
  constructor
  · show ((reposition s.log s.store 0).map Prod.fst).Nodup
    rw [reposition_keys]
    exact h.1
  · intro e' he'
    have hrep := reposition_entries s.log s.store [] h.2 e'
      (by simpa using he')
    simp only [List.nil_append] at hrep
    obtain ⟨hb, e, he, hfst, hsnd, hslice⟩ := hrep
    refine ⟨hb, ?_⟩
    rw [hslice, hfst]
    exact (h.2 e he).2

theorem absGet_compact {s : KvStore} (h : IndexOk s) (k : String) :
    s.compact.absGet k = s.absGet k := by
  rw [compact_store]
  cases hl : lookupStore k s.store with
  | none =>
    have hn := (reposition_lookup s.log s.store [] h.2 k).1 hl
    simp only [List.nil_append] at hn
    have hn' : lookupStore k (reposition s.log s.store 0) = none := hn
    rw [KvStore.absGet, KvStore.absGet]
    show (match lookupStore k (reposition s.log s.store 0) with
      | none => none
      | some (pos, len) =>
        match decodeSlice (sliceAt (chunksOf s.log s.store) pos len) with
        | some (.Set _ v) => some v
        | _ => none) = _
    rw [hn', hl]
  | some pl =>
    obtain ⟨p, l⟩ := pl
    have hs := (reposition_lookup s.log s.store [] h.2 k).2 p l hl
    simp only [List.nil_append] at hs
    obtain ⟨p', hlook, hb, hslice⟩ := hs
    have hlook' : lookupStore k (reposition s.log s.store 0) = some (p', l) := hlook
    rw [KvStore.absGet, KvStore.absGet]
    show (match lookupStore k (reposition s.log s.store 0) with
      | none => none
      | some (pos, len) =>
        match decodeSlice (sliceAt (chunksOf s.log s.store) pos len) with
        | some (.Set _ v) => some v
        | _ => none) = _
    simp only [hlook', hl, hslice]

theorem replayOk_compact {s : KvStore} (h : IndexOk s) : ReplayOk s.compact := by
  obtain ⟨recs, hda, hrep, -⟩ :=
    chunks_replay s.log s.store h.1 h.2 [] [] 0 (fun e _ => rfl)
  rw [compact_store]
  have hrep' : replay recs 0 [] 0 = (reposition s.log s.store 0, 0) := by
    simpa using hrep
  exact ⟨recs, hda, fun k => by rw [hrep']⟩

theorem inv_compact {s : KvStore} (h : IndexOk s) : StoreInv s.compact :=
  ⟨indexOk_compact h, replayOk_compact h⟩

theorem compact_uncompacted (s : KvStore) : s.compact.uncompacted = 0 := by
  rw [compact_store]

theorem compact_log (s : KvStore) : s.compact.log = chunksOf s.log s.store := by
  rw [compact_store]

-- ### Effects of set

theorem setNoCompact_def (s : KvStore) (k v : String) :
    s.setNoCompact k v
      = ⟨(mapInsert k (s.log.length, (encodeOp (.Set k v)).length) s.store).2,
         s.log ++ encodeOp (.Set k v),
         s.uncompacted
           + oldLen (mapInsert k (s.log.length, (encodeOp (.Set k v)).length) s.store).1⟩ := by
  simp only [KvStore.setNoCompact, List.length_append, Nat.add_sub_cancel_left]

theorem set_eq (s : KvStore) (k v : String) :
    s.set k v = if (s.setNoCompact k v).uncompacted > COMPACTION_THRESHOLD
      then (s.setNoCompact k v).compact else s.setNoCompact k v := rfl

theorem decodeAll_single (op : Operation) :
    decodeAll (encodeOp op) = .ok [(op, (encodeOp op).length)] := by
  have hd : decodeOne (encodeOp op) = some (op, []) := by
    have h2 := decodeOne_encodeOp op []
    rwa [List.append_nil] at h2
  have hne : encodeOp op ≠ [] := by
    intro hc
    rw [hc] at hd
    rw [show decodeOne [] = none from rfl] at hd
    exact absurd hd (by simp)
  rw [decodeAll_eq_step hne hd]
  rw [show decodeAll ([] : List Char) = Except.ok [] from rfl]
  simp [Except.map]

theorem indexOk_setNC {s : KvStore} (h : IndexOk s) (k v : String) :
    IndexOk (s.setNoCompact k v) := by
  rw [setNoCompact_def]
  refine ⟨mapInsert_keys_nodup _ h.1, ?_⟩
  intro e he
  rcases mapInsert_mem he with h1 | h1
  · subst h1
    constructor
    · show s.log.length + (encodeOp (.Set k v)).length
        ≤ (s.log ++ encodeOp (.Set k v)).length
      rw [List.length_append]
    · show isSetFor k (decodeSlice (sliceAt (s.log ++ encodeOp (.Set k v))
        s.log.length (encodeOp (.Set k v)).length)) = true
      rw [sliceAt_append_self, decodeSlice_encodeOp]
      exact isSetFor_self k v
  · exact entryOk_append (h.2 e h1)

theorem absGet_setNC_self (s : KvStore) (k v : String) :
    (s.setNoCompact k v).absGet k = some v := by
  rw [setNoCompact_def, KvStore.absGet]
  show (match lookupStore k (mapInsert k (s.log.length, (encodeOp (.Set k v)).length) s.store).2
      with
    | none => none
    | some (pos, len) =>
      match decodeSlice (sliceAt (s.log ++ encodeOp (.Set k v)) pos len) with
      | some (.Set _ v) => some v
      | _ => none) = some v
  simp only [lookup_mapInsert_self, sliceAt_append_self, decodeSlice_encodeOp]

theorem absGet_setNC_ne {s : KvStore} (h : IndexOk s) {k k' : String} (hne : k' ≠ k)
    (v : String) : (s.setNoCompact k v).absGet k' = s.absGet k' := by
  rw [setNoCompact_def, KvStore.absGet, KvStore.absGet]
  show (match lookupStore k' (mapInsert k (s.log.length, (encodeOp (.Set k v)).length) s.store).2
      with
    | none => none
    | some (pos, len) =>
      match decodeSlice (sliceAt (s.log ++ encodeOp (.Set k v)) pos len) with
      | some (.Set _ v) => some v
      | _ => none) = _
  rw [lookup_mapInsert_ne hne]
  cases hl : lookupStore k' s.store with
  | none => rfl
  | some pl =>
    obtain ⟨p, l⟩ := pl
    have hb : p + l ≤ s.log.length := (h.2 _ (lookup_mem hl)).1
    simp only [sliceAt_append hb]

theorem replayOk_setNC {s : KvStore} (hr : ReplayOk s) (k v : String) :
    ReplayOk (s.setNoCompact k v) := by
  obtain ⟨recs, hda, hlk⟩ := hr
  have happ := decodeAll_append s.log.length s.log (Nat.le_refl _) recs
    (encodeOp (.Set k v)) hda
  rw [decodeAll_single] at happ
  refine ⟨recs ++ [(.Set k v, (encodeOp (.Set k v)).length)], ?_, ?_⟩
  · rw [setNoCompact_def]
    show decodeAll (s.log ++ encodeOp (.Set k v)) = _
    rw [happ]
    rfl
  · intro k'
    rw [replay_append, decodeAll_sum hda, Nat.zero_add, replay_set, replay_nil]
    rw [setNoCompact_def]
    show lookupStore k' (mapInsert k (s.log.length, (encodeOp (.Set k v)).length)
      (replay recs 0 [] 0).1).2 = lookupStore k'
        (mapInsert k (s.log.length, (encodeOp (.Set k v)).length) s.store).2
    by_cases hk : k' = k
    · subst hk
      rw [lookup_mapInsert_self, lookup_mapInsert_self]
    · rw [lookup_mapInsert_ne hk, lookup_mapInsert_ne hk]
      exact hlk k'

theorem inv_setNC {s : KvStore} (h : StoreInv s) (k v : String) :
    StoreInv (s.setNoCompact k v) :=
  ⟨indexOk_setNC h.1 k v, replayOk_setNC h.2 k v⟩

theorem inv_set {s : KvStore} (h : StoreInv s) (k v : String) : StoreInv (s.set k v) := by
  rw [set_eq]
  by_cases hc : (s.setNoCompact k v).uncompacted > COMPACTION_THRESHOLD
  · rw [if_pos hc]
    exact inv_compact (indexOk_setNC h.1 k v)
  · rw [if_neg hc]
    exact inv_setNC h k v

theorem absGet_set_self {s : KvStore} (h : IndexOk s) (k v : String) :
    (s.set k v).absGet k = some v := by
  rw [set_eq]
  by_cases hc : (s.setNoCompact k v).uncompacted > COMPACTION_THRESHOLD
  · rw [if_pos hc, absGet_compact (indexOk_setNC h k v), absGet_setNC_self]
  · rw [if_neg hc, absGet_setNC_self]

theorem absGet_set_ne {s : KvStore} (h : IndexOk s) {k k' : String} (hne : k' ≠ k)
    (v : String) : (s.set k v).absGet k' = s.absGet k' := by
  rw [set_eq]
  by_cases hc : (s.setNoCompact k v).uncompacted > COMPACTION_THRESHOLD
  · rw [if_pos hc, absGet_compact (indexOk_setNC h k v), absGet_setNC_ne h hne]
  · rw [if_neg hc, absGet_setNC_ne h hne]

-- ### Effects of remove

theorem removeNoCompact_absent {s : KvStore} {k : String}
    (h : lookupStore k s.store = none) :
    s.removeNoCompact k = (s, .error (.InvalidCommand "Key not found")) := by
  rw [KvStore.removeNoCompact, mapRemove_none h]

theorem remove_absent {s : KvStore} {k : String} (h : lookupStore k s.store = none) :
    s.remove k = (s, .error (.InvalidCommand "Key not found")) := by
  rw [KvStore.remove, removeNoCompact_absent h]

theorem removeNoCompact_present {s : KvStore} {k : String} {pl : Nat × Nat}
    (h : lookupStore k s.store = some pl) :
    s.removeNoCompact k
      = (⟨(mapRemove k s.store).2, s.log ++ encodeOp (.Rm k),
          s.uncompacted + (encodeOp (.Rm k)).length⟩, .ok ()) := by
  rw [KvStore.removeNoCompact]
  rw [show (mapRemove k s.store).1 = some pl by rw [mapRemove_fst]; exact h]
  simp only [List.length_append, Nat.add_sub_cancel_left]

theorem remove_present {s : KvStore} {k : String} {pl : Nat × Nat}
    (h : lookupStore k s.store = some pl) :
    s.remove k = (if ((s.removeNoCompact k).1).uncompacted > COMPACTION_THRESHOLD
      then ((s.removeNoCompact k).1).compact else (s.removeNoCompact k).1, .ok ()) := by
  rw [KvStore.remove]
  rw [show (s.removeNoCompact k).2 = Except.ok () by rw [removeNoCompact_present h]]

theorem indexOk_removeNC {s : KvStore} (h : IndexOk s) {k : String} {pl : Nat × Nat}
    (hl : lookupStore k s.store = some pl) : IndexOk (s.removeNoCompact k).1 := by
  rw [removeNoCompact_present hl]
  refine ⟨mapRemove_keys_nodup h.1, ?_⟩
  intro e he
  exact entryOk_append (h.2 e (mapRemove_mem he))

theorem absGet_removeNC_self {s : KvStore} (h : IndexOk s) {k : String} {pl : Nat × Nat}
    (hl : lookupStore k s.store = some pl) : ((s.removeNoCompact k).1).absGet k = none := by
  rw [removeNoCompact_present hl]
  exact absGet_none (lookup_mapRemove_self k h.1)

theorem absGet_removeNC_ne {s : KvStore} (h : IndexOk s) {k k' : String} (hne : k' ≠ k)
    {pl : Nat × Nat} (hl : lookupStore k s.store = some pl) :
    ((s.removeNoCompact k).1).absGet k' = s.absGet k' := by
  rw [removeNoCompact_present hl, KvStore.absGet, KvStore.absGet]
  show (match lookupStore k' (mapRemove k s.store).2 with
    | none => none
    | some (pos, len) =>
      match decodeSlice (sliceAt (s.log ++ encodeOp (.Rm k)) pos len) with
      | some (.Set _ v) => some v
      | _ => none) = _
  rw [lookup_mapRemove_ne hne]
  cases hl' : lookupStore k' s.store with
  | none => rfl
  | some pl' =>
    obtain ⟨p, l⟩ := pl'
    have hb : p + l ≤ s.log.length := (h.2 _ (lookup_mem hl')).1
    simp only [sliceAt_append hb]

theorem replayOk_removeNC {s : KvStore} (h : StoreInv s) {k : String} {pl : Nat × Nat}
    (hl : lookupStore k s.store = some pl) : ReplayOk (s.removeNoCompact k).1 := by
  obtain ⟨recs, hda, hlk⟩ := h.2
  have happ := decodeAll_append s.log.length s.log (Nat.le_refl _) recs
    (encodeOp (.Rm k)) hda
  rw [decodeAll_single] at happ
  refine ⟨recs ++ [(.Rm k, (encodeOp (.Rm k)).length)], ?_, ?_⟩
  · rw [removeNoCompact_present hl]
    show decodeAll (s.log ++ encodeOp (.Rm k)) = _
    rw [happ]
    rfl
  · intro k'
    rw [replay_append, decodeAll_sum hda, Nat.zero_add, replay_rm, replay_nil]
    rw [removeNoCompact_present hl]
    show lookupStore k' (mapRemove k (replay recs 0 [] 0).1).2
      = lookupStore k' (mapRemove k s.store).2
    by_cases hk : k' = k
    · subst hk
      rw [lookup_mapRemove_self _ (replay_nodup recs 0 [] 0 (by simp)),
        lookup_mapRemove_self _ h.1.1]
    · rw [lookup_mapRemove_ne hk, lookup_mapRemove_ne hk]
      exact hlk k'

theorem inv_removeNC {s : KvStore} (h : StoreInv s) (k : String) :
    StoreInv (s.removeNoCompact k).1 := by
  cases hl : lookupStore k s.store with
  | none => rw [removeNoCompact_absent hl]; exact h
  | some pl => exact ⟨indexOk_removeNC h.1 hl, replayOk_removeNC h hl⟩

theorem inv_remove {s : KvStore} (h : StoreInv s) (k : String) : StoreInv (s.remove k).1 := by
  cases hl : lookupStore k s.store with
  | none => rw [remove_absent hl]; exact h
  | some pl =>
    rw [remove_present hl]
    by_cases hc : ((s.removeNoCompact k).1).uncompacted > COMPACTION_THRESHOLD
    · rw [if_pos hc]
      exact inv_compact (indexOk_removeNC h.1 hl)
    · rw [if_neg hc]
      exact ⟨indexOk_removeNC h.1 hl, replayOk_removeNC h hl⟩

theorem absGet_remove_self {s : KvStore} (h : IndexOk s) {k : String} {pl : Nat × Nat}
    (hl : lookupStore k s.store = some pl) : ((s.remove k).1).absGet k = none := by
  rw [remove_present hl]
  by_cases hc : ((s.removeNoCompact k).1).uncompacted > COMPACTION_THRESHOLD
  · rw [if_pos hc]
    show ((s.removeNoCompact k).1).compact.absGet k = none
    rw [absGet_compact (indexOk_removeNC h hl)]
    exact absGet_removeNC_self h hl
  · rw [if_neg hc]
    exact absGet_removeNC_self h hl

theorem absGet_remove_ne {s : KvStore} (h : IndexOk s) {k k' : String} (hne : k' ≠ k)
    {pl : Nat × Nat} (hl : lookupStore k s.store = some pl) :
    ((s.remove k).1).absGet k' = s.absGet k' := by
  rw [remove_present hl]
  by_cases hc : ((s.removeNoCompact k).1).uncompacted > COMPACTION_THRESHOLD
  · rw [if_pos hc]
    show ((s.removeNoCompact k).1).compact.absGet k' = _
    rw [absGet_compact (indexOk_removeNC h hl)]
    exact absGet_removeNC_ne h hne hl
  · rw [if_neg hc]
    exact absGet_removeNC_ne h hne hl

-- ### Sequences of operations

theorem inv_applyOp {s : KvStore} (h : StoreInv s) (op : Op) : StoreInv (s.applyOp op) := by
  cases op with
  | opSet k v => exact inv_set h k v
  | opRm k => exact inv_remove h k
  | opGet k => exact h

theorem inv_applyOps {s : KvStore} (h : StoreInv s) (ops : List Op) :
    StoreInv (s.applyOps ops) := by
  induction ops generalizing s with
  | nil => exact h
  | cons op rest ih => exact ih (inv_applyOp h op)

theorem absGet_applyOp_ne {s : KvStore} (h : StoreInv s) {op : Op} {k : String}
    (hk : op.mutates k = false) : (s.applyOp op).absGet k = s.absGet k := by
  cases op with
  | opSet k0 v =>
    rw [Op.mutates] at hk
    have hne : k ≠ k0 := fun hq => by rw [hq] at hk; simp at hk
    exact absGet_set_ne h.1 hne v
  | opRm k0 =>
    rw [Op.mutates] at hk
    have hne : k ≠ k0 := fun hq => by rw [hq] at hk; simp at hk
    cases hl : lookupStore k0 s.store with
    | none =>
      show ((s.remove k0).1).absGet k = s.absGet k
      rw [remove_absent hl]
    | some pl => exact absGet_remove_ne h.1 hne hl
  | opGet k0 => rfl

theorem absGet_applyOps_ne {s : KvStore} (h : StoreInv s) {ops : List Op} {k : String}
    (hk : ∀ op ∈ ops, op.mutates k = false) : (s.applyOps ops).absGet k = s.absGet k := by
  induction ops generalizing s with
  | nil => rfl
  | cons op rest ih =>
    show ((s.applyOp op).applyOps rest).absGet k = _
    rw [ih (inv_applyOp h op) (fun o ho => hk o (List.mem_cons_of_mem _ ho)),
      absGet_applyOp_ne h (hk op (List.mem_cons_self ..))]

theorem inv_applyOpNC {s : KvStore} (h : StoreInv s) (op : Op) : StoreInv (s.applyOpNC op) := by
  cases op with
  | opSet k v => exact inv_setNC h k v
  | opRm k => exact inv_removeNC h k
  | opGet k => exact h

theorem absGet_applyOp_bisim {t u : KvStore} (ht : StoreInv t) (hu : StoreInv u)
    (habs : ∀ k, t.absGet k = u.absGet k) (op : Op) :
    ∀ k, (t.applyOp op).absGet k = (u.applyOpNC op).absGet k := by
  cases op with
  | opSet k0 v =>
    intro k
    show (t.set k0 v).absGet k = (u.setNoCompact k0 v).absGet k
    by_cases hk : k = k0
    · subst hk
      rw [absGet_set_self ht.1, absGet_setNC_self]
    · rw [absGet_set_ne ht.1 hk, absGet_setNC_ne hu.1 hk, habs]
  | opRm k0 =>
    intro k
    show ((t.remove k0).1).absGet k = ((u.removeNoCompact k0).1).absGet k
    cases hl : lookupStore k0 t.store with
    | none =>
      have htabs : t.absGet k0 = none := absGet_none hl
      have huabs : u.absGet k0 = none := by rw [← habs]; exact htabs
      have hul : lookupStore k0 u.store = none := lookup_none_of_absGet hu.1 huabs
      rw [remove_absent hl, removeNoCompact_absent hul]
      exact habs k
    | some pl =>
      obtain ⟨p, l⟩ := pl
      obtain ⟨v, hv, -, -⟩ := absGet_of_lookup ht.1 hl
      have huabs : u.absGet k0 = some v := by rw [← habs]; exact hv
      have hul : ∃ pl', lookupStore k0 u.store = some pl' := by
        cases hul0 : lookupStore k0 u.store with
        | none => rw [absGet_none hul0] at huabs; exact absurd huabs (by simp)
        | some pl' => exact ⟨pl', rfl⟩
      obtain ⟨pl', hul'⟩ := hul
      by_cases hk : k = k0
      · subst hk
        rw [absGet_remove_self ht.1 hl, absGet_removeNC_self hu.1 hul']
      · rw [absGet_remove_ne ht.1 hk hl, absGet_removeNC_ne hu.1 hk hul', habs]
  | opGet k0 => exact habs

theorem applyOps_bisim {t u : KvStore} (ht : StoreInv t) (hu : StoreInv u)
    (habs : ∀ k, t.absGet k = u.absGet k) (ops : List Op) :
    StoreInv (t.applyOps ops) ∧ StoreInv (u.applyOpsNC ops) ∧
      ∀ k, (t.applyOps ops).absGet k = (u.applyOpsNC ops).absGet k := by
  induction ops generalizing t u with
  | nil => exact ⟨ht, hu, habs⟩
  | cons op rest ih =>
    exact ih (inv_applyOp ht op) (inv_applyOpNC hu op) (absGet_applyOp_bisim ht hu habs op)

-- ### Closing and reopening

theorem reopen {s : KvStore} (h : StoreInv s) :
    ∃ s', KvStore.openStore s.log = .ok s' ∧ ∀ k, s'.get k = s.get k := by
  obtain ⟨recs, hda, hlk⟩ := h.2
  have hopen : KvStore.openStore s.log
      = .ok ⟨(replay recs 0 [] 0).1, s.log, (replay recs 0 [] 0).2⟩ := by
    rw [KvStore.openStore, hda]
  refine ⟨_, hopen, fun k => ?_⟩
  have hio : IndexOk ⟨(replay recs 0 [] 0).1, s.log, (replay recs 0 [] 0).2⟩ :=
    openStore_indexOk hopen
  have habs : (⟨(replay recs 0 [] 0).1, s.log, (replay recs 0 [] 0).2⟩ : KvStore).absGet k
      = s.absGet k := by
    rw [KvStore.absGet, KvStore.absGet]
    show (match lookupStore k (replay recs 0 [] 0).1 with
      | none => none
      | some (pos, len) =>
        match decodeSlice (sliceAt s.log pos len) with
        | some (.Set _ v) => some v
        | _ => none) = _
    rw [hlk k]
  rw [get_eq_absGet hio, get_eq_absGet h.1, habs]

-- ### Helper facts for the claim theorems

theorem storeInv_empty : StoreInv ⟨[], [], 0⟩ :=
  ⟨⟨List.nodup_nil, fun e he => absurd he (List.not_mem_nil e)⟩, ⟨[], rfl, fun _ => rfl⟩⟩

theorem forall2_set_keys {recs : List (Operation × Nat)} {st : StoreMap}
    (h : List.Forall₂ (fun (rec0 : Operation × Nat) (e : String × Nat × Nat) =>
      (∃ v, rec0.1 = Operation.Set e.1 v) ∧ rec0.2 = e.2.2) recs st) :
    recs.map (fun r => opKey r.1) = st.map Prod.fst ∧ ∀ r ∈ recs, isSetOp r.1 = true := by
  induction h with
  | nil => exact ⟨rfl, fun r hr => absurd hr (List.not_mem_nil r)⟩
  | @cons r e recs' st' hhead htail ih =>
    obtain ⟨⟨v, hv⟩, -⟩ := hhead
    refine ⟨?_, ?_⟩
    · rw [List.map_cons, List.map_cons, hv, ih.1]
      rfl
    · intro r2 hr2
      rcases List.mem_cons.mp hr2 with h1 | h1
      · rw [h1, hv]
        rfl
      · exact ih.2 r2 h1

theorem compactRun_false_store (s : KvStore) :
    (s.compactRun false).1 = ⟨reposition s.log s.store 0, s.log, 0⟩ := by
  rw [KvStore.compactRun, compactLoop_eq]
  rfl

/-- C1: the claim says every `remove(key)` with the key present increases the
dead-byte counter by the removed index entry's length *plus* the tombstone's
length, and that `load` replays with the same accounting.  The code violates
the first half: `KvStore::remove` discards the `(pos, len)` returned by
`HashMap::remove` (the `?` on `ok_or_else` drops it) and adds only the
tombstone length `new_len - old_len`, while `load` adds both.  Concretely:
after `set "a" "1"` (a 31-byte record, so the index holds `("a", (0, 31))`)
a `remove "a"` appends an 18-byte tombstone and leaves the live counter at
18, not 31 + 18 = 49; replaying the very same log with `open` yields a
counter of 49.  The live handle and a reopened handle disagree on the same
log, showing the `remove` accounting is the slip. -/
theorem C1_remove_accounting_bug :
    lookupStore "a" ((⟨[], [], 0⟩ : KvStore).set "a" "1").store = some (0, 31) ∧
    ((((⟨[], [], 0⟩ : KvStore).set "a" "1").remove "a").1).log.length
      - (((⟨[], [], 0⟩ : KvStore).set "a" "1")).log.length = 18 ∧
    ((((⟨[], [], 0⟩ : KvStore).set "a" "1").remove "a").1).uncompacted = 18 ∧
    (18 : Nat) ≠ 31 + 18 ∧
    KvStore.openStore ((((⟨[], [], 0⟩ : KvStore).set "a" "1").remove "a").1).log
      = .ok ⟨[], ((((⟨[], [], 0⟩ : KvStore).set "a" "1").remove "a").1).log, 31 + 18⟩ :=
  ⟨rfl, rfl, rfl, by decide, rfl⟩

/-- C2 (as stated) is false on the code: when the bytes at the stored offset
decode to a record that is not a Set with the requested key, `get` does not
fail with BadFormat.  At the explicit state whose index entry `("a", (0, 18))`
points at a Rm record, `get "a"` returns `Ok(None)` (the `if let` falls
through); and at a state whose entry points at a Set record with a
*different* key, `get "a"` returns that record's value, since the code never
compares keys. -/
theorem C2_counterexample :
    (⟨[("a", (0, 18))], encodeOp (.Rm "a"), 0⟩ : KvStore).get "a" = .ok none ∧
    decodeSlice (sliceAt (encodeOp (.Rm "a")) 0 18) = some (.Rm "a") ∧
    (⟨[("a", (0, 18))], encodeOp (.Rm "a"), 0⟩ : KvStore).get "a"
      ≠ .error KvsError.InvalidFile ∧
    (⟨[("a", (0, 31))], encodeOp (.Set "b" "7"), 0⟩ : KvStore).get "a" = .ok (some "7") ∧
    decodeSlice (sliceAt (encodeOp (.Set "b" "7")) 0 31) = some (.Set "b" "7") :=
  ⟨rfl, rfl, fun h => Except.noConfusion
    ((rfl : (⟨[("a", (0, 18))], encodeOp (.Rm "a"), 0⟩ : KvStore).get "a"
      = .ok none).symm.trans h), rfl, rfl⟩

/-- C2 amended: on an index hit whose byte range lies in the log, `get`
fails with BadFormat exactly when the slice does not decode; a decoded
non-Set record yields `Ok(None)` rather than an error, and a decoded Set
record's value is returned without comparing its key to the requested key. -/
theorem C2_get_hit_behavior (s : KvStore) (k : String) (pos len : Nat)
    (hl : lookupStore k s.store = some (pos, len)) (hb : pos + len ≤ s.log.length) :
    s.get k = match decodeSlice (sliceAt s.log pos len) with
      | none => .error .InvalidFile
      | some (.Set _ v) => .ok (some v)
      | some _ => .ok none := by
  rw [KvStore.get]
  simp only [hl, if_pos hb]

theorem C2_get_hit_behavior_witness :
    (⟨[("a", (0, 18))], encodeOp (.Rm "a"), 0⟩ : KvStore).get "a"
      = match decodeSlice (sliceAt (encodeOp (.Rm "a")) 0 18) with
        | none => .error .InvalidFile
        | some (.Set _ v) => .ok (some v)
        | some _ => .ok none :=
  C2_get_hit_behavior _ "a" 0 18 rfl (by decide)

/-- C3: on a single handle, after `set k v` succeeds, `get k` returns
`Some v` across any further calls that do not address key `k` (sets and
removes of other keys, gets of anything), until a later `set k _` or
`remove k`; in particular after `set k v1; set k v2`, `get k` returns
`Some v2`. -/
theorem C3_read_your_writes (s : KvStore) (hInv : StoreInv s) (k v v1 v2 : String)
    (ops : List Op) (hops : ∀ op ∈ ops, op.mutates k = false) :
    ((s.set k v).applyOps ops).get k = .ok (some v) ∧
    ((s.set k v1).set k v2).get k = .ok (some v2) := by
  constructor
  · have h1 : StoreInv (s.set k v) := inv_set hInv k v
    have h2 : StoreInv ((s.set k v).applyOps ops) := inv_applyOps h1 ops
    rw [get_eq_absGet h2.1, absGet_applyOps_ne h1 hops, absGet_set_self hInv.1]
  · have h1 : StoreInv (s.set k v1) := inv_set hInv k v1
    have h2 : StoreInv ((s.set k v1).set k v2) := inv_set h1 k v2
    rw [get_eq_absGet h2.1, absGet_set_self h1.1]

theorem C3_read_your_writes_witness :
    ((((⟨[], [], 0⟩ : KvStore).set "a" "1").applyOps
      [Op.opSet "b" "2", Op.opGet "a", Op.opRm "b"]).get "a" = .ok (some "1")) ∧
    ((((⟨[], [], 0⟩ : KvStore).set "a" "x").set "a" "y").get "a" = .ok (some "y")) :=
  C3_read_your_writes ⟨[], [], 0⟩ storeInv_empty "a" "1" "x" "y"
    [Op.opSet "b" "2", Op.opGet "a", Op.opRm "b"] (by decide)

/-- C4: for any sequence of calls against a handle obtained by `open`,
reopening the resulting log (replay; legacy Get records are skipped by the
replay loop) succeeds and yields a handle whose `get` agrees with the
original handle on every key. -/
theorem C4_persistence (l : List Char) (s0 : KvStore) (ops : List Op)
    (hopen : KvStore.openStore l = .ok s0) :
    ∃ s', KvStore.openStore ((s0.applyOps ops).log) = .ok s' ∧
      ∀ k, s'.get k = (s0.applyOps ops).get k :=
  reopen (inv_applyOps (openStore_inv hopen) ops)

theorem C4_persistence_witness :
    ∃ s', KvStore.openStore
        (((⟨[], [], 0⟩ : KvStore).applyOps
          [Op.opSet "a" "1", Op.opSet "b" "2", Op.opSet "a" "3"]).log) = .ok s' ∧
      ∀ k, s'.get k = ((⟨[], [], 0⟩ : KvStore).applyOps
        [Op.opSet "a" "1", Op.opSet "b" "2", Op.opSet "a" "3"]).get k :=
  C4_persistence [] ⟨[], [], 0⟩ [Op.opSet "a" "1", Op.opSet "b" "2", Op.opSet "a" "3"] rfl

/-- C5: executing any finite call sequence yields the same `get` answers
whether the compaction trigger runs (`applyOps`, the real `set`/`remove`
with their threshold check) or is disabled (`applyOpsNC`); and immediately
after a completed compaction, the dead-byte counter is 0. -/
theorem C5_compaction_transparent (s : KvStore) (hInv : StoreInv s) (ops : List Op) :
    (∀ k, (s.applyOps ops).get k = (s.applyOpsNC ops).get k) ∧
      s.compact.uncompacted = 0 := by
  obtain ⟨ht, hu, habs⟩ := applyOps_bisim hInv hInv (fun _ => rfl) ops
  exact ⟨fun k => by rw [get_eq_absGet ht.1, get_eq_absGet hu.1, habs k],
    compact_uncompacted s⟩

theorem C5_compaction_transparent_witness :
    (((⟨[], [], 0⟩ : KvStore).applyOps
        [Op.opSet "a" "1", Op.opSet "a" "2", Op.opRm "a"]).get "a"
      = ((⟨[], [], 0⟩ : KvStore).applyOpsNC
        [Op.opSet "a" "1", Op.opSet "a" "2", Op.opRm "a"]).get "a") ∧
    (⟨[], [], 0⟩ : KvStore).compact.uncompacted = 0 :=
  ⟨(C5_compaction_transparent ⟨[], [], 0⟩ storeInv_empty
      [Op.opSet "a" "1", Op.opSet "a" "2", Op.opRm "a"]).1 "a",
   (C5_compaction_transparent ⟨[], [], 0⟩ storeInv_empty []).2⟩

/-- C6: `remove k` for a key absent from the index fails with the
`Key not found` logical error (`KvsError::InvalidCommand`, the error the CLI
reports as KeyNotFound) and leaves the handle unchanged: no bytes are
appended to the log and the index is untouched. -/
theorem C6_remove_missing (s : KvStore) (k : String)
    (h : lookupStore k s.store = none) :
    (s.remove k).2 = .error (.InvalidCommand "Key not found") ∧
    (s.remove k).1 = s ∧
    ((s.remove k).1).log.length = s.log.length ∧
    ((s.remove k).1).store = s.store := by
  rw [remove_absent h]
  exact ⟨rfl, rfl, rfl, rfl⟩

theorem C6_remove_missing_witness :
    ((((⟨[], [], 0⟩ : KvStore).set "b" "2").remove "a").2
      = .error (.InvalidCommand "Key not found")) ∧
    ((((⟨[], [], 0⟩ : KvStore).set "b" "2").remove "a").1
      = (⟨[], [], 0⟩ : KvStore).set "b" "2") ∧
    (((((⟨[], [], 0⟩ : KvStore).set "b" "2").remove "a").1).log.length
      = ((⟨[], [], 0⟩ : KvStore).set "b" "2").log.length) ∧
    (((((⟨[], [], 0⟩ : KvStore).set "b" "2").remove "a").1).store
      = ((⟨[], [], 0⟩ : KvStore).set "b" "2").store) :=
  C6_remove_missing ((⟨[], [], 0⟩ : KvStore).set "b" "2") "a" (by decide)

/-- C7: after a completed compaction, the log's length equals the sum of the
lengths of the live records (the index entries), and the rewritten log
stream-decodes to exactly one Set record per key currently in the index, in
index order, with no duplicate keys. -/
theorem C7_compaction_bounds_size (s : KvStore) (h : IndexOk s) :
    s.compact.log.length = (s.store.map (fun e => e.2.2)).sum ∧
    ∃ recs, decodeAll s.compact.log = .ok recs ∧
      recs.map (fun r => opKey r.1) = s.store.map Prod.fst ∧
      (recs.map (fun r => opKey r.1)).Nodup ∧
      ∀ r ∈ recs, isSetOp r.1 = true := by
  obtain ⟨recs, hda, -, hfa⟩ := chunks_replay s.log s.store h.1 h.2 [] [] 0 (fun e _ => rfl)
  obtain ⟨hkeys, hsets⟩ := forall2_set_keys hfa
  refine ⟨?_, recs, ?_, hkeys, ?_, hsets⟩
  · rw [compact_log, chunksOf_length s.log s.store h.2]
  · rw [compact_log]
    exact hda
  · rw [hkeys]
    exact h.1

theorem C7_compaction_bounds_size_witness :
    (((⟨[], [], 0⟩ : KvStore).set "a" "1").set "b" "22").compact.log.length
      = (((((⟨[], [], 0⟩ : KvStore).set "a" "1").set "b" "22").store.map
          (fun e => e.2.2)).sum) ∧
    ∃ recs, decodeAll (((⟨[], [], 0⟩ : KvStore).set "a" "1").set "b" "22").compact.log
        = .ok recs ∧
      recs.map (fun r => opKey r.1)
        = ((((⟨[], [], 0⟩ : KvStore).set "a" "1").set "b" "22").store.map Prod.fst) ∧
      (recs.map (fun r => opKey r.1)).Nodup ∧
      ∀ r ∈ recs, isSetOp r.1 = true :=
  C7_compaction_bounds_size (((⟨[], [], 0⟩ : KvStore).set "a" "1").set "b" "22") (by decide)

/-- C8: the operations preserve the index invariant: every index entry
`(offset, length)` stays inside the log and its byte range decodes, as a
single record, to a Set record whose key equals the index key.  `open`
establishes it on the handle it returns; `set`, `remove` and compaction
preserve it (a `get` does not modify the index, the log, or the counter, so
there is nothing to show for it). -/
theorem C8_index_invariant_preserved :
    (∀ (l : List Char) (s : KvStore), KvStore.openStore l = .ok s → IndexOk s) ∧
    (∀ (s : KvStore) (k v : String), IndexOk s → IndexOk (s.set k v)) ∧
    (∀ (s : KvStore) (k : String), IndexOk s → IndexOk (s.remove k).1) ∧
    (∀ (s : KvStore), IndexOk s → IndexOk s.compact) := by
  refine ⟨fun l s h => openStore_indexOk h, fun s k v h => ?_, fun s k h => ?_,
    fun s h => indexOk_compact h⟩
  · rw [set_eq]
    by_cases hc : (s.setNoCompact k v).uncompacted > COMPACTION_THRESHOLD
    · rw [if_pos hc]
      exact indexOk_compact (indexOk_setNC h k v)
    · rw [if_neg hc]
      exact indexOk_setNC h k v
  · cases hl : lookupStore k s.store with
    | none => rw [remove_absent hl]; exact h
    | some pl =>
      rw [remove_present hl]
      by_cases hc : ((s.removeNoCompact k).1).uncompacted > COMPACTION_THRESHOLD
      · rw [if_pos hc]
        exact indexOk_compact (indexOk_removeNC h hl)
      · rw [if_neg hc]
        exact indexOk_removeNC h hl

theorem C8_index_invariant_preserved_witness :
    IndexOk ((⟨[], [], 0⟩ : KvStore).set "a" "1") ∧
    IndexOk (((⟨[], [], 0⟩ : KvStore).set "a" "1").remove "a").1 ∧
    IndexOk ((⟨[], [], 0⟩ : KvStore).set "a" "1").compact ∧
    IndexOk ⟨[("a", (0, 31))], encodeOp (.Set "a" "1"), 0⟩ :=
  ⟨C8_index_invariant_preserved.2.1 ⟨[], [], 0⟩ "a" "1" (by decide),
   C8_index_invariant_preserved.2.2.1 ((⟨[], [], 0⟩ : KvStore).set "a" "1") "a" (by decide),
   C8_index_invariant_preserved.2.2.2 ((⟨[], [], 0⟩ : KvStore).set "a" "1") (by decide),
   C8_index_invariant_preserved.1 (encodeOp (.Set "a" "1"))
     ⟨[("a", (0, 31))], encodeOp (.Set "a" "1"), 0⟩ rfl⟩

/-- C9: if the log consists of well-formed records (a prefix on which the
stream decoder succeeds) followed by a nonempty suffix that does not decode
as a record (such as the bytes `garbage`), then `open` fails with the
BadFormat error `InvalidFile` during replay instead of succeeding. -/
theorem C9_open_rejects_trailing_garbage (L g : List Char)
    (recs : List (Operation × Nat)) (hok : decodeAll L = .ok recs)
    (hg : decodeOne g = none) (hne : g ≠ []) :
    KvStore.openStore (L ++ g) = .error .InvalidFile := by
  have happ := decodeAll_append L.length L (Nat.le_refl _) recs g hok
  rw [KvStore.openStore, happ, decodeAll_eq_error hne hg]
  rfl

theorem C9_open_rejects_trailing_garbage_witness :
    KvStore.openStore (encodeOp (.Set "a" "1") ++ "garbage".data)
      = .error .InvalidFile :=
  C9_open_rejects_trailing_garbage (encodeOp (.Set "a" "1")) ("garbage".data)
    [(.Set "a" "1", 31)] rfl rfl (by decide)

/-- C10: `compact` mutates the handle before the atomic rename: it resets
the dead-byte counter to 0 and rewrites every index offset to the entry's
position in the scratch file `kvs.comp`.  If the rename fails, the handle is
left with counter 0, its open log still the old `kvs.db`, and an index equal
to the post-compaction index, whose entries are well formed with respect to
the scratch file's contents — not the still-live old log.  Concretely, after
`set "a" "1"; set "a" "2"`, a compaction whose rename fails leaves the index
entry at the scratch offset `(0, 31)` while the handle still reads the old
log, so `get "a"` returns the stale `Some "1"` where the pre-compaction
handle returned `Some "2"`. -/
theorem C10_compact_mutates_before_rename :
    (∀ (s : KvStore), IndexOk s →
      ((s.compactRun false).1.uncompacted = 0 ∧
       (s.compactRun false).1.log = s.log ∧
       (s.compactRun false).1.store = (s.compactRun true).1.store ∧
       ∀ e ∈ (s.compactRun false).1.store,
         e.2.1 + e.2.2 ≤ (s.compactRun true).1.log.length ∧
         isSetFor e.1 (decodeSlice (sliceAt ((s.compactRun true).1.log) e.2.1 e.2.2))
           = true)) ∧
    ((KvStore.compactRun (((⟨[], [], 0⟩ : KvStore).set "a" "1").set "a" "2") false).1.get "a"
        = .ok (some "1") ∧
      (((⟨[], [], 0⟩ : KvStore).set "a" "1").set "a" "2").get "a" = .ok (some "2") ∧
      (KvStore.compactRun (((⟨[], [], 0⟩ : KvStore).set "a" "1").set "a" "2") false).1.store
        = [("a", (0, 31))] ∧
      (((⟨[], [], 0⟩ : KvStore).set "a" "1").set "a" "2").store = [("a", (31, 31))]) := by
  constructor
  · intro s h
    refine ⟨by rw [compactRun_false_store], by rw [compactRun_false_store], ?_, ?_⟩
    · rw [compactRun_false_store]
      show reposition s.log s.store 0 = s.compact.store
      rw [compact_store]
    · intro e he
      rw [compactRun_false_store] at he
      have he' : e ∈ s.compact.store := by
        rw [compact_store]
        exact he
      exact (indexOk_compact h).2 e he'
  · exact ⟨rfl, rfl, rfl, rfl⟩

theorem C10_compact_mutates_before_rename_witness :
    ((((⟨[], [], 0⟩ : KvStore).set "a" "1").set "b" "2").compactRun false).1.uncompacted = 0 ∧
    ((((⟨[], [], 0⟩ : KvStore).set "a" "1").set "b" "2").compactRun false).1.log
      = (((⟨[], [], 0⟩ : KvStore).set "a" "1").set "b" "2").log ∧
    ((((⟨[], [], 0⟩ : KvStore).set "a" "1").set "b" "2").compactRun false).1.store
      = ((((⟨[], [], 0⟩ : KvStore).set "a" "1").set "b" "2").compactRun true).1.store :=
  ⟨(C10_compact_mutates_before_rename.1
      ((((⟨[], [], 0⟩ : KvStore).set "a" "1").set "b" "2")) (by decide)).1,
   (C10_compact_mutates_before_rename.1
      ((((⟨[], [], 0⟩ : KvStore).set "a" "1").set "b" "2")) (by decide)).2.1,
   (C10_compact_mutates_before_rename.1
      ((((⟨[], [], 0⟩ : KvStore).set "a" "1").set "b" "2")) (by decide)).2.2.1⟩
